import Mathlib

/-!
Verification development for the lektor-redirect plugin core
(`src/lektor_redirect/util.py`, `plugin.py`, `exceptions.py`, plus the
legacy monolithic `__init__.py`).

The embedding works over plain Lean strings and lists.  Python string
primitives used by the source (`str.split("/")`, `posixpath.join`,
`posixpath.normpath`, `posixpath.basename`, `str.lstrip("/")`,
`urllib.parse.urljoin`) are modelled character-for-character on
`List Char`, following the CPython implementations, and wrapped into
`String` at the API boundary.
-/

namespace LektorRedirect

/-- Python `s.split("/")` on a character list: splits on every slash,
keeping empty components (so `"" ↦ [""]`, `"/" ↦ ["", ""]`). -/
def splitL : List Char → List (List Char)
  | [] => [[]]
  | x :: xs =>
    match splitL xs with
    | [] => [[]]
    | h :: t => if x = '/' then [] :: h :: t else (x :: h) :: t

/-- Python `"/".join(comps)` on character lists. -/
def interL : List (List Char) → List Char
  | [] => []
  | [c] => c
  | c :: cs => c ++ '/' :: interL cs

/-- Python `posixpath.basename`: everything after the last slash,
equivalently the last component of `splitL`. -/
def basenameL (l : List Char) : List Char := (splitL l).getLastD []

/-- Does the character list start with a slash (Python `startswith("/")`). -/
def startsSlash (l : List Char) : Bool := l.head? == some '/'

/-- Python `posixpath.join(a, b)` for two arguments. -/
def joinL (a b : List Char) : List Char :=
  if startsSlash b then b
  else if a = [] ∨ a.getLast? = some '/' then a ++ b
  else a ++ '/' :: b

/-- Number of significant initial slashes per `posixpath.normpath`:
`1` for a single leading slash (or three or more), `2` for exactly two
(POSIX double-slash special case), `0` when relative. -/
def initialSlashesOf (l : List Char) : Nat :=
  if startsSlash l then
    if l.take 3 = ['/', '/', '/'] then 1
    else if l.take 2 = ['/', '/'] then 2
    else 1
  else 0

/-- One step of the `posixpath.normpath` component loop: skip empty and
`"."` components, append anything that is not `".."` (or a `".."` that
cannot be cancelled), otherwise pop the previous component. -/
def normStep (initialSlashes : Nat) (acc : List (List Char)) (comp : List Char) :
    List (List Char) :=
  if comp = [] ∨ comp = ['.'] then acc
  else if comp ≠ ['.', '.'] ∨ (initialSlashes = 0 ∧ acc = []) ∨
      (acc ≠ [] ∧ acc.getLast? = some ['.', '.']) then acc ++ [comp]
  else acc.dropLast

/-- Python `posixpath.normpath` on a character list (CPython algorithm). -/
def normpathL (l : List Char) : List Char :=
  if l = [] then ['.']
  else
    let k := initialSlashesOf l
    let comps := (splitL l).foldl (normStep k) []
    let r := List.replicate k '/' ++ interL comps
    if r = [] then ['.'] else r

/-- The core `normalize_url_path` from `util.py`, over character lists:
join a relative path onto the base url, `normpath` it, and append a
trailing slash when the final segment carries no dot. -/
def normalizeL (baseUrl l : List Char) : List Char :=
  let joined := if startsSlash l then l else joinL baseUrl l
  let np := normpathL joined
  if '.' ∈ basenameL np then np else np ++ ['/']

/-- `normalize_url_path` restricted to the base record url it actually
reads (the source receives a record and uses only `record.url_path`). -/
def normalizeFrom (baseUrlPath : String) (url_path : String) : String :=
  ⟨normalizeL baseUrlPath.data url_path.data⟩

/-- Python `s.lstrip("/")`. -/
def lstripSlash (s : String) : String := ⟨s.data.dropWhile (· = '/')⟩

/-- `urllib.parse.scheme_chars`: ASCII letters and digits plus `+`, `-`
and `.`. -/
def isSchemeChar (c : Char) : Bool :=
  c.isAlpha || c.isDigit || c == '+' || c == '-' || c == '.'

/-- The scheme detection of `urllib.parse.urlsplit`: the text before
the first `:` is a scheme when the colon is not the first character,
the first character is an ASCII letter, and everything before the colon
is a scheme character. -/
def splitScheme (l : List Char) : Option (List Char × List Char) :=
  let i := l.findIdx (· == ':')
  if i < l.length ∧ 0 < i ∧ (l.headD ' ').isAlpha ∧
      (l.take i).all isSchemeChar then
    some (l.take i, l.drop (i + 1))
  else none

/-- `urllib.parse._splitnetloc`: after a leading `//`, the netloc runs
up to the first of `/`, `?` or `#`. -/
def splitNetloc (l : List Char) : List Char × List Char :=
  if l.take 2 = ['/', '/'] then
    let rest := l.drop 2
    let j := rest.findIdx (fun c => c == '/' || c == '?' || c == '#')
    (rest.take j, rest.drop j)
  else ([], l)

/-- Python `s.split(c, 1)` keeping both halves (the delimiter dropped);
identity with an empty second half when the delimiter is absent. -/
def splitOnFirst (c : Char) (l : List Char) : List Char × List Char :=
  let i := l.findIdx (· == c)
  if i < l.length then (l.take i, l.drop (i + 1)) else (l, [])

/-- The five components returned by `urllib.parse.urlsplit`. -/
structure UrlSplit where
  scheme : List Char
  netloc : List Char
  path : List Char
  query : List Char
  fragment : List Char
deriving DecidableEq, Repr

/-- `urllib.parse.urlsplit(url, scheme)` (CPython 3.11, with
`allow_fragments` true), for inputs free of the C0 control characters,
tabs, carriage returns, newlines and leading spaces that the WHATWG
pre-cleaning strips: scheme detection (scheme lower-cased, the given
`scheme` argument as default), then the `//`-netloc, then the fragment
after the first `#`, then the query after the first `?`. -/
def urlsplitL (url dscheme : List Char) : UrlSplit :=
  let p1 :=
    match splitScheme url with
    | some p => (p.1.map Char.toLower, p.2)
    | none => (dscheme, url)
  let p2 := splitNetloc p1.2
  let p3 := splitOnFirst '#' p2.2
  let p4 := splitOnFirst '?' p3.1
  ⟨p1.1, p2.1, p4.1, p4.2, p3.2⟩

/-- `urllib.parse.uses_relative` (CPython 3.11). -/
def uses_relative : List (List Char) :=
  (["", "ftp", "http", "gopher", "nntp", "imap", "wais", "file", "https",
    "shttp", "mms", "prospero", "rtsp", "rtsps", "rtspu", "sftp", "svn",
    "svn+ssh", "ws", "wss"].map String.data)

/-- `urllib.parse.uses_netloc` (CPython 3.11). -/
def uses_netloc : List (List Char) :=
  (["", "ftp", "http", "gopher", "nntp", "telnet", "imap", "wais", "file",
    "mms", "https", "shttp", "snews", "prospero", "rtsp", "rtsps", "rtspu",
    "rsync", "svn", "svn+ssh", "sftp", "nfs", "git", "git+ssh", "ws",
    "wss"].map String.data)

/-- `urllib.parse.uses_params` (CPython 3.11). -/
def uses_params : List (List Char) :=
  (["", "ftp", "hdl", "prospero", "http", "imap", "https", "shttp", "rtsp",
    "rtsps", "rtspu", "sip", "sips", "mms", "sftp", "tel"].map String.data)

/-- `urllib.parse._splitparams`: split the params off after the first
`;` of the last `/`-separated segment. -/
def splitParams (url : List Char) : List Char × List Char :=
  if '/' ∈ url then
    let rstart := url.length - 1 - url.reverse.findIdx (· == '/')
    let k := (url.drop rstart).findIdx (· == ';')
    if k < (url.drop rstart).length then
      (url.take (rstart + k), url.drop (rstart + k + 1))
    else (url, [])
  else
    let i := url.findIdx (· == ';')
    if i < url.length then (url.take i, url.drop (i + 1)) else (url, [])

/-- The six components returned by `urllib.parse.urlparse`. -/
structure UrlParse where
  scheme : List Char
  netloc : List Char
  path : List Char
  params : List Char
  query : List Char
  fragment : List Char
deriving DecidableEq, Repr

/-- `urllib.parse.urlparse(url, scheme)`: `urlsplit`, then the params
split off the path when the scheme uses params and the path holds a
`;`. -/
def urlparseL (url dscheme : List Char) : UrlParse :=
  let s := urlsplitL url dscheme
  let pp :=
    if s.scheme ∈ uses_params ∧ ';' ∈ s.path then splitParams s.path
    else (s.path, [])
  ⟨s.scheme, s.netloc, pp.1, pp.2, s.query, s.fragment⟩

/-- `urllib.parse.urlunsplit` (CPython 3.11): re-add the `//`-netloc
part when a netloc is present (or the scheme requires one and the path
does not already start `//`), then the scheme, the non-empty query and
the non-empty fragment. -/
def urlunsplitL (scheme netloc url query fragment : List Char) : List Char :=
  let url :=
    if netloc ≠ [] ∨ (scheme ≠ [] ∧ scheme ∈ uses_netloc ∧
        url.take 2 ≠ ['/', '/']) then
      '/' :: '/' :: (netloc ++
        (if url ≠ [] ∧ url.take 1 ≠ ['/'] then '/' :: url else url))
    else url
  let url := if scheme ≠ [] then scheme ++ ':' :: url else url
  let url := if query ≠ [] then url ++ '?' :: query else url
  if fragment ≠ [] then url ++ '#' :: fragment else url

/-- `urllib.parse.urlunparse`: re-attach the params to the path, then
`urlunsplit`. -/
def urlunparseL (scheme netloc path params query fragment : List Char) :
    List Char :=
  urlunsplitL scheme netloc
    (if params ≠ [] then path ++ ';' :: params else path) query fragment

/-- Keep the first and last segment, drop empty interior segments —
CPython `urljoin`'s `segments[1:-1] = filter(None, segments[1:-1])`. -/
def filterMiddleL (segs : List (List Char)) : List (List Char) :=
  match segs with
  | [] => []
  | [x] => [x]
  | h :: t => h :: ((t.dropLast.filter (fun s => s ≠ [])) ++ [t.getLastD []])

/-- One step of the CPython `urljoin` segment-resolution loop: `..`
pops the resolved path (`list.pop` on the empty list is caught and
ignored), `.` is skipped, anything else is appended. -/
def ujStep (acc : List (List Char)) (seg : List Char) : List (List Char) :=
  if seg = ['.', '.'] then acc.dropLast
  else if seg = ['.'] then acc
  else acc ++ [seg]

/-- `urllib.parse.urljoin` (CPython 3.11), for inputs free of the C0
control characters, tabs, carriage returns, newlines and leading spaces
that the WHATWG pre-cleaning strips: parse both urls (the base scheme
is the default for the reference), return the reference unchanged when
its scheme differs from the base scheme or does not use relative
resolution, keep its netloc when it has one, otherwise merge — drop the
base path's final non-directory segment, combine with the reference's
path segments (kept whole when its path is absolute, interior empties
filtered otherwise), resolve the `.`/`..` segments, rejoin with `/`
(`"/"` when empty), and reassemble with `urlunparse`. -/
def urljoin (base url : String) : String :=
  if base = "" then url
  else if url = "" then base
  else
    let b := urlparseL base.data []
    let r := urlparseL url.data b.scheme
    if r.scheme ≠ b.scheme ∨ r.scheme ∉ uses_relative then url
    else if r.scheme ∈ uses_netloc ∧ r.netloc ≠ [] then
      ⟨urlunparseL r.scheme r.netloc r.path r.params r.query r.fragment⟩
    else
      let netloc := if r.scheme ∈ uses_netloc then b.netloc else r.netloc
      if r.path = [] ∧ r.params = [] then
        let query := if r.query = [] then b.query else r.query
        ⟨urlunparseL r.scheme netloc b.path b.params query r.fragment⟩
      else
        let base_parts := splitL b.path
        let base_parts :=
          if base_parts.getLastD [] ≠ [] then base_parts.dropLast
          else base_parts
        let segments :=
          if r.path.take 1 = ['/'] then splitL r.path
          else filterMiddleL (base_parts ++ splitL r.path)
        let resolved := segments.foldl ujStep []
        let resolved :=
          if segments.getLastD [] = ['.'] ∨ segments.getLastD [] = ['.', '.']
          then resolved ++ [[]]
          else resolved
        let path := interL resolved
        let path := if path = [] then ['/'] else path
        ⟨urlunparseL r.scheme netloc path r.params r.query r.fragment⟩

end LektorRedirect

namespace LektorRedirect

/-- Result of the host field lookup `record[redirect_from_field]` for the
configured redirect field: either an iterable of raw url strings, or one
of the two exceptions `TypeError` (input not indexable, e.g. a non-record
asset) / `KeyError` (no such field) that the plugin swallows. -/
inductive FieldLookup where
  | vals (urls : List String)
  | typeError
  | keyError
deriving DecidableEq, Repr

/-- A content record as the plugin sees it: its `path` identity, its
canonical `url_path`, the `url_path` of its parent (none for the root),
and the outcome of looking up the configured redirect field on it. -/
structure Record where
  path : String
  url_path : String
  parentUrl : Option String
  redirect_from : FieldLookup
deriving DecidableEq, Repr

/-- Lektor record equality (`Record.__eq__`): records compare by `path`
(same pad and alternative assumed throughout). -/
def Record.beq (a b : Record) : Bool := a.path == b.path

/-- Base used to resolve relative redirect declarations:
`record.parent or record`, of which `normalize_url_path` reads only the
`url_path`. -/
def Record.base_url (r : Record) : String := r.parentUrl.getD r.url_path

/-- The content-tree snapshot ("pad") as the index consumes it:
the records produced by `walk_records(pad)` in walk order, the host url
resolver as called under `Redirect.disable_url_resolution()` (so with
redirect resolution off), and the configured site base path. -/
structure Pad where
  records : List Record
  resolveNoRedirect : String → Option Record
  basePath : String

/-- Faithful wrapper of `util.normalize_url_path(record, url_path)`. -/
def normalize_url_path (record : Record) (url_path : String) : String :=
  normalizeFrom record.url_path url_path

/-- `RedirectPlugin._get_redirect_urls`: raw redirect declarations of one
record, normalized against its parent (or itself at the root); `TypeError`
and `KeyError` from the field lookup yield the empty set.  The Python
result is a set of strings; it is modelled as the duplicate-free list in
first-occurrence order (which urls are members is all that matters). -/
def _get_redirect_urls (record : Record) : List String :=
  match record.redirect_from with
  | .typeError => []
  | .keyError => []
  | .vals urls =>
    (urls.map (fun redirect_url => normalizeFrom record.base_url redirect_url)).eraseDups

/-- Association-list lookup modelling Python `dict.get`. -/
def lookupA {α : Type} (m : List (String × α)) (k : String) : Option α :=
  (m.find? (fun e => e.1 == k)).map (·.2)

/-- Association-list store modelling Python `dict.__setitem__`: overwrite
in place when the key exists, append otherwise. -/
def setA {α : Type} (m : List (String × α)) (k : String) (v : α) : List (String × α) :=
  if (m.find? (fun e => e.1 == k)).isSome then
    m.map (fun e => if e.1 == k then (k, v) else e)
  else m ++ [(k, v)]

/-- `redirects[url_path].add(record)` on the defaultdict of sets:
create the entry when absent; adding a record equal (by `Record.beq`) to
one already present is a no-op that keeps the original element. -/
def addCand (m : List (String × List Record)) (k : String) (r : Record) :
    List (String × List Record) :=
  match lookupA m k with
  | some cs => setA m k (if cs.any (fun c => Record.beq c r) then cs else cs ++ [r])
  | none => m ++ [(k, [r])]

/-- `redirects[url_path].discard(record)`: the defaultdict access creates
an empty entry for a missing key; otherwise the record equal to `r` is
removed from the set (a set holds at most one element equal to `r`, so
the filter removes exactly that element). -/
def discardCand (m : List (String × List Record)) (k : String) (r : Record) :
    List (String × List Record) :=
  match lookupA m k with
  | some cs => setA m k (cs.filter (fun c => ¬ Record.beq c r))
  | none => m ++ [(k, [])]

/-- The `RedirectIndex` state after construction: the multimap of
redirect source urls to declaring records (each candidate list being
`list(<python set>)`) and the `actual url → record` table. -/
structure RedirectIndex where
  _redirects : List (String × List Record)
  _records_by_url : List (String × Record)
deriving Repr

/-- Contribution of one walked record to the redirect multimap:
`for url_path in plugin._get_redirect_urls(record): redirects[url_path].add(record)`. -/
def multimapStep (m : List (String × List Record)) (record : Record) :
    List (String × List Record) :=
  (_get_redirect_urls record).foldl (fun m u => addCand m u record) m

/-- Contribution of one walked record to the url table:
`records_by_url[record.url_path] = record`. -/
def rbuStep (m : List (String × Record)) (record : Record) : List (String × Record) :=
  setA m record.url_path record

/-- First phase of `RedirectIndex.__init__`: one pass over the walked
records accumulating the redirect multimap and the url table. -/
def buildRaw (pad : Pad) : List (String × List Record) × List (String × Record) :=
  pad.records.foldl
    (fun acc record => (multimapStep acc.1 record, rbuStep acc.2 record))
    ([], [])

/-- Full `RedirectIndex.__init__`.  `enum` models the unspecified CPython
set enumeration order performed by `list(targets)`: it may permute each
candidate list arbitrarily (CPython iterates sets in hash order, which
for records is seeded string hashing of their paths, not insertion
order).  Theorems quantify over every `enum` that permutes its input. -/
def RedirectIndex.build (enum : List Record → List Record) (pad : Pad) : RedirectIndex :=
  let raw := buildRaw pad
  let discarded := raw.2.foldl (fun m e => discardCand m e.1 e.2) raw.1
  { _redirects := discarded.filterMap
      (fun e => if e.2.isEmpty then none else some (e.1, enum e.2)),
    _records_by_url := raw.2 }

/-- The two exceptional outcomes of `RedirectIndex.__getitem__`: a
`KeyError` from the dict lookup, or the `assert len(targets) > 0`. -/
inductive PyErr where
  | keyError
  | assertionError
deriving DecidableEq, Repr

/-- `RedirectIndex.__getitem__`: dict lookup, the non-emptiness
assertion, then the first element of the candidate list. -/
def RedirectIndex.getitem (idx : RedirectIndex) (key : String) : Except PyErr Record :=
  match lookupA idx._redirects key with
  | none => .error .keyError
  | some targets =>
    match targets with
    | [] => .error .assertionError
    | t :: _ => .ok t

/-- `RedirectIndex.__iter__` / `__len__` iterate the mapping keys. -/
def RedirectIndex.keys (idx : RedirectIndex) : List String :=
  idx._redirects.map (·.1)

/-- The three conflict exceptions of `exceptions.py`, with their
constructor payloads. -/
inductive RedirectExc where
  | toSelf (url_path : String) (target : Record)
  | shadows (url_path : String) (target : Record) (conflict : Record)
  | ambiguous (url_path : String) (target : Record) (conflict : Record)
deriving DecidableEq, Repr

/-- Python `repr` of a url string as interpolated by `!r` (the urls at
play contain no quotes or escapes). -/
def pyRepr (s : String) : String := "'" ++ s ++ "'"

/-- Modelled from the spec: the host system's `Record.__repr__`
(lektor's, outside this repository) — an opaque rendering that names the
record; only that it mentions the record is relied upon. -/
def Record.reprs (r : Record) : String := "<Record " ++ pyRepr r.path ++ ">"

/-- The `url_path` attribute stored by `InvalidRedirectException`. -/
def RedirectExc.url_path : RedirectExc → String
  | .toSelf u _ => u
  | .shadows u _ _ => u
  | .ambiguous u _ _ => u

/-- The `target` attribute stored by `InvalidRedirectException`. -/
def RedirectExc.target : RedirectExc → Record
  | .toSelf _ t => t
  | .shadows _ t _ => t
  | .ambiguous _ t _ => t

/-- The `reason` property of each exception subclass. -/
def RedirectExc.reason : RedirectExc → String
  | .toSelf _ _ => "redirect to self"
  | .shadows _ _ conflict =>
    "redirect url conflicts with existing record " ++ conflict.reprs
  | .ambiguous u _ conflict =>
    "conflicts with redirect " ++ pyRepr u ++ " => " ++ conflict.reprs

/-- `InvalidRedirectException.message` (also its `__str__`). -/
def RedirectExc.message (e : RedirectExc) : String :=
  pyRepr e.url_path ++ " => " ++ e.target.reprs ++ ": " ++ e.reason

/-- `RedirectIndex.raise_on_conflict(url_path, target)`: self-redirect
check first, then the shadow check (url table, falling back to the host
resolver with redirect resolution disabled), then the first differing
candidate as an ambiguity. -/
def RedirectIndex.raise_on_conflict (idx : RedirectIndex) (pad : Pad)
    (url_path : String) (target : Record) : Except RedirectExc Unit :=
  if target.url_path == url_path then .error (.toSelf url_path target)
  else
    let existing :=
      match lookupA idx._records_by_url url_path with
      | some r => some r
      | none => pad.resolveNoRedirect url_path
    match existing with
    | some e => .error (.shadows url_path target e)
    | none =>
      match ((lookupA idx._redirects url_path).getD []).find?
          (fun conflict => !(Record.beq conflict target)) with
      | some conflict => .error (.ambiguous url_path target conflict)
      | none => .ok ()

/-- `RedirectIndex.is_conflict(url_path, target, warn_on_conflict)`,
with the reporter made explicit: `verbosity` is `reporter.verbosity` and
the second component is the list of messages sent to
`reporter.report_generic`.  A `RedirectToSelfException` is caught first
(reported only at verbosity ≥ 1); every other `InvalidRedirectException`
is caught by the second handler. -/
def RedirectIndex.is_conflict (idx : RedirectIndex) (pad : Pad) (verbosity : Nat)
    (url_path : String) (target : Record) (warn_on_conflict : Bool) :
    Bool × List String :=
  match idx.raise_on_conflict pad url_path target with
  | .error e =>
    match e with
    | .toSelf _ _ =>
      (true,
       if warn_on_conflict && decide (1 ≤ verbosity) then
         ["Ignoring redirect: " ++ e.message]
       else [])
    | _ =>
      (true,
       if warn_on_conflict then ["Invalid redirect: " ++ e.message] else [])
  | .ok _ => (false, [])

/-- The plugin's per-pad state: the weak-keyed index cache restricted to
the one pad in play. -/
structure PluginState where
  cache : Option RedirectIndex

/-- `RedirectPlugin.get_index`: return the cached index or build and
cache a fresh one. -/
def get_index (enum : List Record → List Record) (st : PluginState) (pad : Pad) :
    RedirectIndex × PluginState :=
  match st.cache with
  | some idx => (idx, st)
  | none =>
    let idx := RedirectIndex.build enum pad
    (idx, ⟨some idx⟩)

/-- `RedirectPlugin.get_redirect_urls`: the raw per-record urls, returned
as-is when empty, otherwise filtered through `is_conflict` with warnings
on; also returns the emitted messages and the updated cache state. -/
def get_redirect_urls (enum : List Record → List Record) (st : PluginState)
    (pad : Pad) (verbosity : Nat) (record : Record) :
    List String × List String × PluginState :=
  let redirect_urls := _get_redirect_urls record
  if redirect_urls.length = 0 then (redirect_urls, [], st)
  else
    let (index, st1) := get_index enum st pad
    let filtered := (_get_redirect_urls record).foldl
      (fun acc redirect_url =>
        let c := index.is_conflict pad verbosity redirect_url record true
        (if c.1 then acc.1 else acc.1 ++ [redirect_url], acc.2 ++ c.2))
      ([], [])
    (filtered.1, filtered.2, st1)

/-- Boolean strict lexicographic order on character lists: the order in
which Python compares strings (by code point). -/
def lexLt : List Char → List Char → Bool
  | _, [] => false
  | [], _ :: _ => true
  | a :: as, b :: bs => if a < b then true else if b < a then false else lexLt as bs

/-- Non-strict string comparison used to model Python `sorted`. -/
def strLeB (a b : String) : Bool := a == b || lexLt a.data b.data

/-- Python `sorted` on strings. -/
def sortStrings (l : List String) : List String := l.mergeSort strLeB

/-- `RedirectPlugin.iter_redirect_map(pad)`: build a fresh index, iterate
its keys in sorted order, keep the non-conflicting entries, and resolve
both urls of each kept entry against the configured base path.  Returns
the emitted pairs and the reporter messages.  The `st` argument is the
plugin instance state, which the method does not consult.  The
`__getitem__` error branch is unreachable for keys of the index (its
candidate lists are non-empty, see `getitem_ok_of_mem_keys`). -/
def iter_redirect_map (enum : List Record → List Record) (st : PluginState)
    (pad : Pad) (verbosity : Nat) : List (String × String) × List String :=
  let base_path := pad.basePath
  let abs_url := fun (u : String) => urljoin base_path (lstripSlash u)
  let index := RedirectIndex.build enum pad
  (sortStrings index.keys).foldl
    (fun acc redirect_url =>
      match index.getitem redirect_url with
      | .error _ => acc
      | .ok target =>
        let c := index.is_conflict pad verbosity redirect_url target true
        (if c.1 then acc.1
         else acc.1 ++ [(abs_url redirect_url, abs_url target.url_path)],
         acc.2 ++ c.2))
    ([], [])

end LektorRedirect


namespace LektorRedirect

/-- The canonical shape of a `normpath` result: `k` leading slashes
followed by slash-joined components. -/
def canonL (k : Nat) (comps : List (List Char)) : List Char :=
  List.replicate k '/' ++ interL comps

theorem splitL_ne_nil (l : List Char) : splitL l ≠ [] := by
  cases l with
  | nil => simp [splitL]
  | cons x xs =>
    unfold splitL
    cases h : splitL xs with
    | nil => simp
    | cons h t => by_cases hx : x = '/' <;> simp [hx]

theorem splitL_cons (x : Char) (xs : List Char) :
    splitL (x :: xs) =
      if x = '/' then [] :: splitL xs
      else (x :: (splitL xs).headD []) :: (splitL xs).tail := by
  obtain ⟨h, t, hs⟩ := List.exists_cons_of_ne_nil (splitL_ne_nil xs)
  simp only [splitL, hs]
  by_cases hx : x = '/' <;> simp [hx]

theorem splitL_slash (xs : List Char) : splitL ('/' :: xs) = [] :: splitL xs := by
  rw [splitL_cons]; simp

theorem splitL_cons_of_ne (x : Char) (xs : List Char) (hx : x ≠ '/') :
    splitL (x :: xs) = (x :: (splitL xs).headD []) :: (splitL xs).tail := by
  rw [splitL_cons]; simp [hx]

theorem splitL_append_slash (l : List Char) :
    splitL (l ++ ['/']) = splitL l ++ [[]] := by
  induction l with
  | nil => simp [splitL]
  | cons x xs ih =>
    show splitL (x :: (xs ++ ['/'])) = _
    by_cases hx : x = '/'
    · subst hx
      rw [splitL_slash, splitL_slash, ih]
      simp
    · rw [splitL_cons_of_ne _ _ hx, splitL_cons_of_ne _ _ hx, ih]
      obtain ⟨h, t, hs⟩ := List.exists_cons_of_ne_nil (splitL_ne_nil xs)
      rw [hs]
      simp

theorem splitL_replicate_slash (k : Nat) (rest : List Char) :
    splitL (List.replicate k '/' ++ rest) = List.replicate k [] ++ splitL rest := by
  induction k with
  | zero => simp
  | succ n ih =>
    show splitL ('/' :: (List.replicate n '/' ++ rest)) = _
    rw [splitL_slash, ih]
    simp [List.replicate_succ]

theorem splitL_no_slash (c : List Char) (hc : '/' ∉ c) : splitL c = [c] := by
  induction c with
  | nil => simp [splitL]
  | cons x xs ih =>
    have hx : x ≠ '/' := fun h => hc (h ▸ List.mem_cons_self x xs)
    have hxs : '/' ∉ xs := fun h => hc (List.mem_cons_of_mem x h)
    rw [splitL_cons_of_ne _ _ hx, ih hxs]
    simp

theorem splitL_append_slash_cons (c rest : List Char) (hc : '/' ∉ c) :
    splitL (c ++ '/' :: rest) = c :: splitL rest := by
  induction c with
  | nil => simpa using splitL_slash rest
  | cons x xs ih =>
    have hx : x ≠ '/' := fun h => hc (h ▸ List.mem_cons_self x xs)
    have hxs : '/' ∉ xs := fun h => hc (List.mem_cons_of_mem x h)
    show splitL (x :: (xs ++ '/' :: rest)) = _
    rw [splitL_cons_of_ne _ _ hx, ih hxs]
    simp

theorem splitL_interL (comps : List (List Char)) (hne : comps ≠ [])
    (hs : ∀ c ∈ comps, '/' ∉ c) : splitL (interL comps) = comps := by
  induction comps with
  | nil => exact absurd rfl hne
  | cons c cs ih =>
    cases cs with
    | nil => exact splitL_no_slash c (hs c (List.mem_cons_self c []))
    | cons d ds =>
      show splitL (c ++ '/' :: interL (d :: ds)) = _
      rw [splitL_append_slash_cons c _ (hs c (List.mem_cons_self c _))]
      rw [ih (by simp) (fun x hx => hs x (List.mem_cons_of_mem c hx))]

theorem mem_splitL_no_slash (l : List Char) : ∀ c ∈ splitL l, '/' ∉ c := by
  induction l with
  | nil =>
    intro c hc
    simp [splitL] at hc
    simp [hc]
  | cons x xs ih =>
    intro c hc
    by_cases hx : x = '/'
    · subst hx
      rw [splitL_slash] at hc
      rcases List.mem_cons.mp hc with h | h
      · simp [h]
      · exact ih c h
    · rw [splitL_cons_of_ne _ _ hx] at hc
      obtain ⟨h, t, hs⟩ := List.exists_cons_of_ne_nil (splitL_ne_nil xs)
      rw [hs] at hc
      rcases List.mem_cons.mp hc with h1 | h1
      · subst h1
        intro hmem
        rcases List.mem_cons.mp hmem with h2 | h2
        · exact hx h2.symm
        · exact ih h (hs ▸ List.mem_cons_self h t) h2
      · exact ih c (hs ▸ List.mem_cons_of_mem h h1)

theorem interL_ne_nil (comps : List (List Char)) (hne : comps ≠ [])
    (h : ∀ c ∈ comps, c ≠ []) : interL comps ≠ [] := by
  cases comps with
  | nil => exact absurd rfl hne
  | cons c cs =>
    cases cs with
    | nil => exact h c (List.mem_cons_self c [])
    | cons d ds =>
      show c ++ '/' :: interL (d :: ds) ≠ []
      simp

theorem getLast?_interL (comps : List (List Char)) (hne : comps ≠ [])
    (hnn : ∀ x ∈ comps, x ≠ []) :
    (interL comps).getLast? = (comps.getLastD []).getLast? := by
  induction comps with
  | nil => exact absurd rfl hne
  | cons c cs ih =>
    cases cs with
    | nil => simp [interL]
    | cons d ds =>
      show (c ++ '/' :: interL (d :: ds)).getLast? = _
      rw [List.getLast?_append_of_ne_nil c (by simp)]
      have hgl : ((c :: d :: ds).getLastD []) = ((d :: ds).getLastD []) := by
        simp [List.getLastD_cons]
      rw [hgl, ← ih (by simp) (fun x hx => hnn x (List.mem_cons_of_mem c hx))]
      cases hd : interL (d :: ds) with
      | nil =>
        exact absurd hd
          (interL_ne_nil _ (by simp) (fun x hx => hnn x (List.mem_cons_of_mem c hx)))
      | cons y ys => exact List.getLast?_cons_cons

end LektorRedirect

namespace LektorRedirect

theorem normStep_nil (k : Nat) (acc : List (List Char)) : normStep k acc [] = acc := by
  simp [normStep]

theorem normStep_good (k : Nat) (acc : List (List Char)) (comp : List Char)
    (h1 : comp ≠ []) (h2 : comp ≠ ['.']) (h3 : comp ≠ ['.', '.']) :
    normStep k acc comp = acc ++ [comp] := by
  simp [normStep, h1, h2, h3]

theorem foldl_normStep_replicate (k n : Nat) (acc : List (List Char)) :
    List.foldl (normStep k) acc (List.replicate n []) = acc := by
  induction n with
  | zero => rfl
  | succ m ih => simp [List.replicate_succ, normStep_nil, ih]

theorem foldl_normStep_good (k : Nat) (comps : List (List Char))
    (h : ∀ c ∈ comps, c ≠ [] ∧ c ≠ ['.'] ∧ c ≠ ['.', '.']) (acc : List (List Char)) :
    List.foldl (normStep k) acc comps = acc ++ comps := by
  induction comps generalizing acc with
  | nil => simp
  | cons c cs ih =>
    have hc := h c (List.mem_cons_self c cs)
    show List.foldl (normStep k) (normStep k acc c) cs = _
    rw [normStep_good k acc c hc.1 hc.2.1 hc.2.2,
      ih (fun x hx => h x (List.mem_cons_of_mem c hx))]
    simp

theorem initialSlashesOf_one (ch : Char) (rest : List Char) (hch : ch ≠ '/') :
    initialSlashesOf ('/' :: ch :: rest) = 1 := by
  have h3 : ('/' :: ch :: rest).take 3 ≠ ['/', '/', '/'] := by
    cases rest <;> simp [hch]
  have h2 : ('/' :: ch :: rest).take 2 ≠ ['/', '/'] := by simp [hch]
  have hs : startsSlash ('/' :: ch :: rest) = true := rfl
  unfold initialSlashesOf
  rw [hs, if_pos rfl, if_neg h3, if_neg h2]

theorem initialSlashesOf_two (ch : Char) (rest : List Char) (hch : ch ≠ '/') :
    initialSlashesOf ('/' :: '/' :: ch :: rest) = 2 := by
  have h3 : ('/' :: '/' :: ch :: rest).take 3 ≠ ['/', '/', '/'] := by simp [hch]
  have h2 : ('/' :: '/' :: ch :: rest).take 2 = ['/', '/'] := rfl
  have hs : startsSlash ('/' :: '/' :: ch :: rest) = true := rfl
  unfold initialSlashesOf
  rw [hs, if_pos rfl, if_neg h3, if_pos h2]

/-- Components appearing in `normpath` output: nonempty, slash-free, not
`"."`, and (for absolute inputs) not `".."`. -/
def goodComp (k : Nat) (c : List Char) : Prop :=
  c ≠ [] ∧ '/' ∉ c ∧ c ≠ ['.'] ∧ (1 ≤ k → c ≠ ['.', '.'])

theorem foldl_normStep_inv (k : Nat) (comps : List (List Char))
    (hs : ∀ c ∈ comps, '/' ∉ c) (acc : List (List Char))
    (hacc : ∀ c ∈ acc, goodComp k c) :
    ∀ c ∈ List.foldl (normStep k) acc comps, goodComp k c := by
  induction comps generalizing acc with
  | nil => simpa using hacc
  | cons c cs ih =>
    show ∀ x ∈ List.foldl (normStep k) (normStep k acc c) cs, goodComp k x
    refine ih (fun x hx => hs x (List.mem_cons_of_mem c hx)) _ ?_
    intro x hx
    unfold normStep at hx
    by_cases hskip : c = [] ∨ c = ['.']
    · rw [if_pos hskip] at hx
      exact hacc x hx
    · rw [if_neg hskip] at hx
      push_neg at hskip
      by_cases happ : c ≠ ['.', '.'] ∨ (k = 0 ∧ acc = []) ∨
          (acc ≠ [] ∧ acc.getLast? = some ['.', '.'])
      · rw [if_pos happ] at hx
        rcases List.mem_append.mp hx with hmem | hmem
        · exact hacc x hmem
        · have hxc : x = c := by simpa using hmem
          subst hxc
          refine ⟨hskip.1, hs x (List.mem_cons_self x cs), hskip.2, ?_⟩
          intro hk1 hdd
          rcases happ with h | h | h
          · exact h hdd
          · omega
          · rcases List.mem_of_mem_getLast? h.2 with hmem2
            exact (hacc _ hmem2).2.2.2 hk1 rfl
      · rw [if_neg happ] at hx
        exact hacc x (List.dropLast_subset acc hx)

theorem normpathL_canon (k : Nat) (comps : List (List Char))
    (hk : k = 1 ∨ k = 2) (hne : comps ≠ [])
    (hgood : ∀ c ∈ comps, c ≠ [] ∧ '/' ∉ c ∧ c ≠ ['.'] ∧ c ≠ ['.', '.']) :
    normpathL (canonL k comps) = canonL k comps ∧
    normpathL (canonL k comps ++ ['/']) = canonL k comps := by
  obtain ⟨c0, cs, hcomps⟩ := List.exists_cons_of_ne_nil hne
  obtain ⟨ch, ctail, hc0⟩ := List.exists_cons_of_ne_nil
    (hgood c0 (hcomps ▸ List.mem_cons_self c0 cs)).1
  have hch : ch ≠ '/' := by
    intro h
    exact (hgood c0 (hcomps ▸ List.mem_cons_self c0 cs)).2.1
      (h ▸ hc0 ▸ List.mem_cons_self ch ctail)
  have hshape : ∃ rest, interL comps = ch :: rest := by
    subst hcomps
    cases cs with
    | nil => exact ⟨ctail, by simp [interL, hc0]⟩
    | cons d ds =>
      refine ⟨ctail ++ '/' :: interL (d :: ds), ?_⟩
      show c0 ++ '/' :: interL (d :: ds) = _
      rw [hc0]
      simp
  obtain ⟨rest, hinter⟩ := hshape
  have hslash : ∀ c ∈ comps, '/' ∉ c := fun c hc => (hgood c hc).2.1
  have hsplit : splitL (canonL k comps) = List.replicate k [] ++ comps := by
    unfold canonL
    rw [splitL_replicate_slash, splitL_interL comps hne hslash]
  have hsplit2 : splitL (canonL k comps ++ ['/']) =
      List.replicate k [] ++ comps ++ [[]] := by
    rw [splitL_append_slash, hsplit]
  have hinit : initialSlashesOf (canonL k comps) = k := by
    unfold canonL
    rw [hinter]
    rcases hk with hk | hk <;> subst hk
    · exact initialSlashesOf_one ch rest hch
    · exact initialSlashesOf_two ch rest hch
  have hinit2 : initialSlashesOf (canonL k comps ++ ['/']) = k := by
    unfold canonL
    rw [hinter]
    rcases hk with hk | hk <;> subst hk
    · show initialSlashesOf ('/' :: ch :: (rest ++ ['/'])) = 1
      exact initialSlashesOf_one ch _ hch
    · show initialSlashesOf ('/' :: '/' :: ch :: (rest ++ ['/'])) = 2
      exact initialSlashesOf_two ch _ hch
  have hfold : ∀ kk, List.foldl (normStep kk) [] (List.replicate k [] ++ comps) = comps := by
    intro kk
    rw [List.foldl_append, foldl_normStep_replicate kk k []]
    rw [foldl_normStep_good kk comps (fun c hc =>
      ⟨(hgood c hc).1, (hgood c hc).2.2.1, (hgood c hc).2.2.2⟩) []]
    simp
  have hcne : canonL k comps ≠ [] := by
    unfold canonL
    rw [hinter]
    rcases hk with hk | hk <;> subst hk <;> simp
  have hinner : ¬(List.replicate k '/' ++ interL comps = []) := by
    simpa [canonL] using hcne
  constructor
  · simp only [normpathL]
    rw [if_neg hcne, hinit, hsplit, hfold k, if_neg hinner]
    rfl
  · simp only [normpathL]
    rw [if_neg (by simp [hcne] : ¬(canonL k comps ++ ['/'] = []))]
    rw [hinit2, hsplit2]
    rw [show List.replicate k [] ++ comps ++ [[]] =
      List.replicate k [] ++ (comps ++ [[]]) from by simp]
    rw [List.foldl_append (normStep k) [] (List.replicate k []) (comps ++ [[]])]
    rw [foldl_normStep_replicate k k []]
    rw [List.foldl_append, foldl_normStep_good k comps (fun c hc =>
      ⟨(hgood c hc).1, (hgood c hc).2.2.1, (hgood c hc).2.2.2⟩) []]
    simp only [List.nil_append, List.foldl_cons, List.foldl_nil, normStep_nil]
    rw [if_neg hinner]
    rfl

end LektorRedirect

namespace LektorRedirect

theorem normpathL_shape (l : List Char) :
    ∃ comps, (∀ c ∈ comps, goodComp (initialSlashesOf l) c) ∧
      normpathL l =
        (if initialSlashesOf l = 0 ∧ comps = [] then ['.']
         else canonL (initialSlashesOf l) comps) := by
  by_cases hl : l = []
  · subst hl
    refine ⟨[], by simp, ?_⟩
    have : initialSlashesOf ([] : List Char) = 0 := rfl
    simp [normpathL, this]
  · refine ⟨(splitL l).foldl (normStep (initialSlashesOf l)) [], ?_, ?_⟩
    · exact foldl_normStep_inv _ _ (mem_splitL_no_slash l) [] (by simp)
    · simp only [normpathL]
      rw [if_neg hl]
      by_cases hz : initialSlashesOf l = 0 ∧
          (splitL l).foldl (normStep (initialSlashesOf l)) [] = []
      · rw [if_pos hz, hz.2, hz.1]
        simp [interL]
      · rw [if_neg hz]
        rw [if_neg ?hne]
        · rfl
        case hne =>
          intro hr
          rcases List.append_eq_nil.mp hr with ⟨h1, h2⟩
          apply hz
          constructor
          · simpa using h1
          · cases hc : (splitL l).foldl (normStep (initialSlashesOf l)) [] with
            | nil => rfl
            | cons c cs =>
              exfalso
              have hg := foldl_normStep_inv (initialSlashesOf l) (splitL l)
                (mem_splitL_no_slash l) [] (by simp)
              rw [hc] at hg
              have hcne := (hg c (List.mem_cons_self c cs)).1
              rw [hc] at h2
              exact (interL_ne_nil (c :: cs) (by simp)
                (fun x hx => (hg x hx).1)) h2

theorem basenameL_canon (k : Nat) (comps : List (List Char)) (hne : comps ≠ [])
    (hs : ∀ c ∈ comps, '/' ∉ c) :
    basenameL (canonL k comps) = comps.getLastD [] := by
  unfold basenameL canonL
  rw [splitL_replicate_slash, splitL_interL comps hne hs]
  rw [List.getLastD_eq_getLast?, List.getLastD_eq_getLast?]
  rw [List.getLast?_append_of_ne_nil _ hne]

theorem basenameL_slashes (k : Nat) : basenameL (List.replicate k '/') = [] := by
  unfold basenameL
  have : List.replicate k '/' = List.replicate k '/' ++ [] := by simp
  rw [this, splitL_replicate_slash]
  have : splitL [] = [[]] := rfl
  rw [this]
  rw [List.getLastD_eq_getLast?, List.getLast?_append_of_ne_nil _ (by simp)]
  rfl

theorem getLast?_canonL (k : Nat) (comps : List (List Char)) (hne : comps ≠ [])
    (hnn : ∀ c ∈ comps, c ≠ []) :
    (canonL k comps).getLast? = (comps.getLastD []).getLast? := by
  unfold canonL
  rw [List.getLast?_append_of_ne_nil _ (interL_ne_nil comps hne hnn)]
  exact getLast?_interL comps hne hnn

end LektorRedirect

namespace LektorRedirect

theorem startsSlash_iff (l : List Char) : startsSlash l = true ↔ ∃ t, l = '/' :: t := by
  cases l with
  | nil => simp [startsSlash]
  | cons x xs =>
    constructor
    · intro h
      have hx : x = '/' := by simpa [startsSlash] using h
      exact ⟨xs, by rw [hx]⟩
    · rintro ⟨t, ht⟩
      rw [ht]
      simp [startsSlash]

theorem startsSlash_joinL (a b : List Char) (ha : startsSlash a = true) :
    startsSlash (joinL a b) = true := by
  obtain ⟨t, ht⟩ := (startsSlash_iff a).mp ha
  unfold joinL
  by_cases hb : startsSlash b = true
  · simp [hb]
  · rw [if_neg (by simp [hb])]
    by_cases h2 : a = [] ∨ a.getLast? = some '/'
    · rw [if_pos h2, ht]
      exact (startsSlash_iff _).mpr ⟨t ++ b, by simp⟩
    · rw [if_neg h2, ht]
      exact (startsSlash_iff _).mpr ⟨t ++ '/' :: b, by simp⟩

theorem initialSlashesOf_cases (l : List Char) (hl : startsSlash l = true) :
    initialSlashesOf l = 1 ∨ initialSlashesOf l = 2 := by
  unfold initialSlashesOf
  rw [hl, if_pos rfl]
  by_cases h3 : l.take 3 = ['/', '/', '/']
  · rw [if_pos h3]; left; rfl
  · rw [if_neg h3]
    by_cases h2 : l.take 2 = ['/', '/']
    · rw [if_pos h2]; right; rfl
    · rw [if_neg h2]; left; rfl

theorem startsSlash_canonL (k : Nat) (comps : List (List Char)) (hk : 1 ≤ k) :
    startsSlash (canonL k comps) = true := by
  cases k with
  | zero => omega
  | succ n =>
    refine (startsSlash_iff _).mpr ⟨List.replicate n '/' ++ interL comps, ?_⟩
    simp [canonL, List.replicate_succ]

/-- The absolute-or-joined path that `normalize_url_path` normalizes. -/
def joinedOf (record : Record) (url_path : String) : List Char :=
  if startsSlash url_path.data then url_path.data
  else joinL record.url_path.data url_path.data

/-- The path against which `normalize_url_path` decides the trailing
slash: `posixpath.normpath` of the (joined) input. -/
def normalizedOf (record : Record) (url_path : String) : List Char :=
  normpathL (joinedOf record url_path)

theorem normalize_url_path_eq (record : Record) (url_path : String) :
    (normalize_url_path record url_path).data =
      (if '.' ∈ basenameL (normalizedOf record url_path)
       then normalizedOf record url_path
       else normalizedOf record url_path ++ ['/']) := by
  show (normalizeL record.url_path.data url_path.data) = _
  simp only [normalizeL, normalizedOf, joinedOf]

theorem normalizedOf_not_endsSlash (record : Record) (url_path : String)
    (hdot : '.' ∈ basenameL (normalizedOf record url_path)) :
    (normalizedOf record url_path).getLast? ≠ some '/' := by
  set j := joinedOf record url_path with hj
  obtain ⟨comps, hgood, heq⟩ := normpathL_shape j
  have hn : normalizedOf record url_path = normpathL j := rfl
  rw [hn, heq]
  rw [hn, heq] at hdot
  by_cases hz : initialSlashesOf j = 0 ∧ comps = []
  · rw [if_pos hz]
    intro h
    injection h with h
    exact absurd h (by decide)
  · rw [if_neg hz]
    rw [if_neg hz] at hdot
    cases hcomps : comps with
    | nil =>
      exfalso
      rw [hcomps] at hdot
      have : canonL (initialSlashesOf j) [] = List.replicate (initialSlashesOf j) '/' := by
        simp [canonL, interL]
      rw [this, basenameL_slashes] at hdot
      simp at hdot
    | cons c cs =>
      rw [getLast?_canonL _ _ (by simp) (fun x hx =>
        (hgood x (hcomps ▸ hx)).1)]
      intro hlast
      have hmem : '/' ∈ (c :: cs).getLastD [] :=
        List.mem_of_mem_getLast? (by rw [hlast]; rfl)
      have hl : (c :: cs).getLastD [] ∈ c :: cs := by
        rw [List.getLastD_eq_getLast?]
        cases hgl : (c :: cs).getLast? with
        | none => simp at hgl
        | some x => exact List.mem_of_mem_getLast? (by rw [hgl]; rfl)
      exact (hgood _ (hcomps ▸ hl)).2.1 hmem

end LektorRedirect

namespace LektorRedirect

theorem startsSlash_append (a b : List Char) (ha : a ≠ []) :
    startsSlash (a ++ b) = startsSlash a := by
  cases a with
  | nil => exact absurd rfl ha
  | cons x xs => rfl

/-- C8: for every record and input path, when the final segment of the
`normpath`-normalized path contains no dot the normalized url ends with a
slash, and when it does contain a dot the result is exactly the
`normpath` output, which carries no trailing slash. -/
theorem normalize_url_path_trailing_slash (record : Record) (url_path : String) :
    (('.' ∉ basenameL (normalizedOf record url_path)) →
      (normalize_url_path record url_path).data.getLast? = some '/') ∧
    (('.' ∈ basenameL (normalizedOf record url_path)) →
      (normalize_url_path record url_path).data = normalizedOf record url_path ∧
      (normalize_url_path record url_path).data.getLast? ≠ some '/') := by
  constructor
  · intro hdot
    rw [normalize_url_path_eq, if_neg hdot]
    rw [List.getLast?_append_of_ne_nil _ (by simp)]
    rfl
  · intro hdot
    rw [normalize_url_path_eq, if_pos hdot]
    exact ⟨rfl, normalizedOf_not_endsSlash record url_path hdot⟩

/-- Closed instances exercising `normalize_url_path_trailing_slash` at
concrete inputs on both branches. -/
theorem normalize_url_path_trailing_slash_witness :
    ('.' ∉ basenameL (normalizedOf ⟨"/", "/", none, .keyError⟩ "/foo")) ∧
    (normalize_url_path ⟨"/", "/", none, .keyError⟩ "/foo").data.getLast? = some '/' ∧
    ('.' ∈ basenameL (normalizedOf ⟨"/", "/", none, .keyError⟩ "/foo.txt")) ∧
    (normalize_url_path ⟨"/", "/", none, .keyError⟩ "/foo.txt").data =
      normalizedOf ⟨"/", "/", none, .keyError⟩ "/foo.txt" := by
  refine ⟨by decide, ?_, by decide, ?_⟩
  · exact (normalize_url_path_trailing_slash ⟨"/", "/", none, .keyError⟩ "/foo").1
      (by decide)
  · exact ((normalize_url_path_trailing_slash ⟨"/", "/", none, .keyError⟩ "/foo.txt").2
      (by decide)).1

/-- The root record used for the idempotence counterexample. -/
def rootRecord : Record := ⟨"/", "/", none, .keyError⟩

/-- C4 fails as stated: on the root record, normalizing the url path
`"/"` yields `"//"` (POSIX keeps a double slash special), and normalizing
`"//"` again yields `"///"`, so normalization is not idempotent (CPython
`posixpath.normpath` exhibits exactly this behaviour). -/
theorem normalize_url_path_not_idempotent :
    normalize_url_path rootRecord "/" = "//" ∧
    normalize_url_path rootRecord (normalize_url_path rootRecord "/") = "///" ∧
    normalize_url_path rootRecord (normalize_url_path rootRecord "/") ≠
      normalize_url_path rootRecord "/" := by
  refine ⟨?_, ?_, ?_⟩ <;> decide

end LektorRedirect

namespace LektorRedirect

/-- C4 amended: normalization is idempotent for every base record whose
own url is absolute (as canonical record urls are) and every input whose
normalization has a nonempty final segment — i.e. excluding only inputs
that normalize to a bare run of slashes, on which the counterexample
`normalize_url_path_not_idempotent` shows idempotence fails. -/
theorem normalize_url_path_idempotent (record : Record) (url_path : String)
    (habs : startsSlash record.url_path.data = true)
    (hseg : basenameL (normalizedOf record url_path) ≠ []) :
    normalize_url_path record (normalize_url_path record url_path) =
      normalize_url_path record url_path := by
  have hjs : startsSlash (joinedOf record url_path) = true := by
    unfold joinedOf
    by_cases h : startsSlash url_path.data = true
    · rw [if_pos h]; exact h
    · rw [if_neg (by simp [h])]
      exact startsSlash_joinL _ _ habs
  obtain ⟨comps, hgood, heq⟩ := normpathL_shape (joinedOf record url_path)
  have hk := initialSlashesOf_cases _ hjs
  have hk1 : 1 ≤ initialSlashesOf (joinedOf record url_path) := by
    rcases hk with h | h <;> omega
  have hz : ¬(initialSlashesOf (joinedOf record url_path) = 0 ∧ comps = []) := by
    rintro ⟨h0, _⟩; omega
  have hnof : normalizedOf record url_path =
      canonL (initialSlashesOf (joinedOf record url_path)) comps := by
    unfold normalizedOf
    rw [heq, if_neg hz]
  have hcne : comps ≠ [] := by
    intro h
    apply hseg
    rw [hnof, h]
    have h2 : canonL (initialSlashesOf (joinedOf record url_path)) [] =
        List.replicate (initialSlashesOf (joinedOf record url_path)) '/' := by
      simp [canonL, interL]
    rw [h2, basenameL_slashes]
  have hgood' : ∀ c ∈ comps, c ≠ [] ∧ '/' ∉ c ∧ c ≠ ['.'] ∧ c ≠ ['.', '.'] := by
    intro c hc
    obtain ⟨h1, h2, h3, h4⟩ := hgood c hc
    exact ⟨h1, h2, h3, h4 hk1⟩
  have hcanon := normpathL_canon (initialSlashesOf (joinedOf record url_path))
    comps hk hcne hgood'
  have hr1 := normalize_url_path_eq record url_path
  rw [hnof] at hr1
  have hstarts : startsSlash (normalize_url_path record url_path).data = true := by
    rw [hr1]
    by_cases hdot : '.' ∈ basenameL (canonL
        (initialSlashesOf (joinedOf record url_path)) comps)
    · rw [if_pos hdot]
      exact startsSlash_canonL _ _ hk1
    · rw [if_neg hdot]
      rw [startsSlash_append _ _ ?hcnn]
      · exact startsSlash_canonL _ _ hk1
      case hcnn =>
        intro h
        have := startsSlash_canonL (initialSlashesOf (joinedOf record url_path))
          comps hk1
        rw [h] at this
        simp [startsSlash] at this
  have hj2 : joinedOf record (normalize_url_path record url_path) =
      (normalize_url_path record url_path).data := by
    unfold joinedOf
    rw [if_pos hstarts]
  have hnof2 : normalizedOf record (normalize_url_path record url_path) =
      canonL (initialSlashesOf (joinedOf record url_path)) comps := by
    unfold normalizedOf
    rw [hj2, hr1]
    by_cases hdot : '.' ∈ basenameL (canonL
        (initialSlashesOf (joinedOf record url_path)) comps)
    · rw [if_pos hdot]
      exact hcanon.1
    · rw [if_neg hdot]
      exact hcanon.2
  have hr2 := normalize_url_path_eq record (normalize_url_path record url_path)
  rw [hnof2] at hr2
  have hdata : (normalize_url_path record (normalize_url_path record url_path)).data =
      (normalize_url_path record url_path).data := by
    rw [hr2, hr1]
  cases hsplit1 : normalize_url_path record (normalize_url_path record url_path) with
  | mk d1 =>
    cases hsplit2 : normalize_url_path record url_path with
    | mk d2 =>
      rw [hsplit1, hsplit2] at hdata
      exact congrArg String.mk (by simpa using hdata)

/-- Closed instance exercising `normalize_url_path_idempotent` on a
concrete record and path. -/
theorem normalize_url_path_idempotent_witness :
    startsSlash (Record.url_path ⟨"/about", "/about/", some "/", .keyError⟩).data = true ∧
    basenameL (normalizedOf ⟨"/about", "/about/", some "/", .keyError⟩ "extra") ≠ [] ∧
    normalize_url_path ⟨"/about", "/about/", some "/", .keyError⟩
        (normalize_url_path ⟨"/about", "/about/", some "/", .keyError⟩ "extra") =
      normalize_url_path ⟨"/about", "/about/", some "/", .keyError⟩ "extra" :=
  ⟨by decide, by decide,
   normalize_url_path_idempotent ⟨"/about", "/about/", some "/", .keyError⟩ "extra"
     (by decide) (by decide)⟩

end LektorRedirect

namespace LektorRedirect

/-- Keys of an association list. -/
def keysA {α : Type} (m : List (String × α)) : List String := m.map (·.1)

theorem lookupA_nil {α : Type} (k : String) : lookupA ([] : List (String × α)) k = none := rfl

theorem lookupA_cons {α : Type} (e : String × α) (m : List (String × α)) (k : String) :
    lookupA (e :: m) k = if e.1 = k then some e.2 else lookupA m k := by
  unfold lookupA
  by_cases h : e.1 = k
  · rw [if_pos h]
    rw [List.find?_cons_of_pos _ (by simp [h])]
    rfl
  · rw [if_neg h]
    rw [List.find?_cons_of_neg _ (by simp [h])]

theorem lookupA_append {α : Type} (m n : List (String × α)) (k : String) :
    lookupA (m ++ n) k = (lookupA m k).orElse (fun _ => lookupA n k) := by
  induction m with
  | nil => simp [lookupA_nil]
  | cons e m ih =>
    rw [List.cons_append, lookupA_cons, lookupA_cons]
    by_cases h : e.1 = k
    · simp [h]
    · simp [h, ih]

theorem lookupA_eq_none_iff {α : Type} (m : List (String × α)) (k : String) :
    lookupA m k = none ↔ k ∉ keysA m := by
  induction m with
  | nil => simp [lookupA_nil, keysA]
  | cons e m ih =>
    rw [lookupA_cons]
    by_cases h : e.1 = k
    · simp [h, keysA]
    · simp only [if_neg h, ih, keysA, List.map_cons, List.mem_cons]
      constructor
      · intro hk hor
        rcases hor with hor | hor
        · exact h hor.symm
        · exact hk hor
      · intro hk
        exact fun hor => hk (Or.inr hor)

theorem lookupA_map_update {α : Type} (m : List (String × α)) (k : String) (v : α)
    (k' : String) :
    lookupA (m.map (fun e => if e.1 == k then (k, v) else e)) k' =
      if k' = k then (lookupA m k).map (fun _ => v) else lookupA m k' := by
  induction m with
  | nil => by_cases h : k' = k <;> simp [lookupA_nil, h]
  | cons e m ih =>
    simp only [List.map_cons, lookupA_cons]
    by_cases hek : e.1 = k <;> by_cases hk : k' = k <;>
      by_cases hek' : e.1 = k' <;>
      simp [hek, hk, hek', ih] <;> simp_all

end LektorRedirect

namespace LektorRedirect

theorem orElse_eval_none {α : Type} (f : Unit → Option α) :
    (Option.none).orElse f = f () := rfl

theorem orElse_eval_some {α : Type} (a : α) (f : Unit → Option α) :
    (Option.some a).orElse f = some a := rfl

theorem lookupA_single {α : Type} (k k' : String) (v : α) (hk : k' ≠ k) :
    lookupA [(k, v)] k' = none := by
  rw [lookupA_cons, if_neg (fun h => hk h.symm)]
  rfl

theorem lookupA_isSome_find {α : Type} (m : List (String × α)) (k : String) :
    (m.find? (fun e => e.1 == k)).isSome = (lookupA m k).isSome := by
  unfold lookupA
  cases m.find? (fun e => e.1 == k) <;> rfl

theorem lookupA_setA {α : Type} (m : List (String × α)) (k : String) (v : α)
    (k' : String) :
    lookupA (setA m k v) k' = if k' = k then some v else lookupA m k' := by
  unfold setA
  by_cases hp : (m.find? (fun e => e.1 == k)).isSome = true
  · rw [if_pos hp, lookupA_map_update]
    by_cases hk : k' = k
    · rw [if_pos hk, if_pos hk]
      rw [lookupA_isSome_find] at hp
      cases h : lookupA m k with
      | none => rw [h] at hp; simp at hp
      | some w => simp
    · rw [if_neg hk, if_neg hk]
  · rw [if_neg hp, lookupA_append]
    have hnone : lookupA m k = none := by
      rw [lookupA_isSome_find] at hp
      cases h : lookupA m k with
      | none => rfl
      | some w => rw [h] at hp; simp at hp
    by_cases hk : k' = k
    · subst hk
      rw [hnone, orElse_eval_none, lookupA_cons, if_pos rfl, if_pos rfl]
    · rw [if_neg hk]
      cases hmk : lookupA m k' with
      | some w => rw [orElse_eval_some]
      | none => rw [orElse_eval_none, lookupA_single k k' v hk]

theorem keysA_setA {α : Type} (m : List (String × α)) (k : String) (v : α) :
    keysA (setA m k v) = keysA m ∨ keysA (setA m k v) = keysA m ++ [k] := by
  unfold setA
  by_cases hp : (m.find? (fun e => e.1 == k)).isSome = true
  · left
    rw [if_pos hp]
    unfold keysA
    rw [List.map_map]
    apply List.map_congr_left
    intro e he
    by_cases hek : e.1 = k
    · simp [hek]
    · simp [hek]
  · right
    rw [if_neg hp]
    simp [keysA]

theorem mem_keysA_of_lookupA {α : Type} (m : List (String × α)) (k : String)
    (h : lookupA m k ≠ none) : k ∈ keysA m := by
  by_contra hmem
  exact h ((lookupA_eq_none_iff m k).mpr hmem)

theorem nodup_keysA_setA {α : Type} (m : List (String × α)) (k : String) (v : α)
    (h : (keysA m).Nodup) : (keysA (setA m k v)).Nodup := by
  unfold setA
  by_cases hp : (m.find? (fun e => e.1 == k)).isSome = true
  · rw [if_pos hp]
    have : keysA (m.map (fun e => if e.1 == k then (k, v) else e)) = keysA m := by
      unfold keysA
      rw [List.map_map]
      apply List.map_congr_left
      intro e he
      by_cases hek : e.1 = k
      · simp [hek]
      · simp [hek]
    rw [this]
    exact h
  · rw [if_neg hp]
    have hk : k ∉ keysA m := by
      intro hmem
      apply hp
      rw [lookupA_isSome_find]
      have : lookupA m k ≠ none := fun hn => ((lookupA_eq_none_iff m k).mp hn) hmem
      cases hl : lookupA m k with
      | none => exact absurd hl this
      | some w => rfl
    have : keysA (m ++ [(k, v)]) = keysA m ++ [k] := by simp [keysA]
    rw [this]
    simp [List.nodup_append, h, hk]

theorem lookupA_addCand (m : List (String × List Record)) (k : String) (r : Record)
    (k' : String) :
    lookupA (addCand m k r) k' =
      if k' = k then
        some (match lookupA m k with
              | some cs => if cs.any (fun c => Record.beq c r) then cs else cs ++ [r]
              | none => [r])
      else lookupA m k' := by
  unfold addCand
  cases h : lookupA m k with
  | some cs =>
    rw [lookupA_setA]
  | none =>
    rw [lookupA_append]
    by_cases hk : k' = k
    · subst hk
      rw [h, orElse_eval_none, lookupA_cons, if_pos rfl, if_pos rfl]
    · rw [if_neg hk]
      cases hmk : lookupA m k' with
      | some w => rw [orElse_eval_some]
      | none => rw [orElse_eval_none, lookupA_single k k' [r] hk]

theorem nodup_keysA_addCand (m : List (String × List Record)) (k : String) (r : Record)
    (h : (keysA m).Nodup) : (keysA (addCand m k r)).Nodup := by
  unfold addCand
  cases hl : lookupA m k with
  | some cs => exact nodup_keysA_setA m k _ h
  | none =>
    have hk : k ∉ keysA m := (lookupA_eq_none_iff m k).mp hl
    have : keysA (m ++ [(k, [r])]) = keysA m ++ [k] := by simp [keysA]
    rw [this]
    simp [List.nodup_append, h, hk]

theorem lookupA_discardCand_getD (m : List (String × List Record)) (k : String)
    (r : Record) (u : String) :
    (lookupA (discardCand m k r) u).getD [] =
      if u = k then ((lookupA m k).getD []).filter (fun c => ¬ Record.beq c r)
      else (lookupA m u).getD [] := by
  unfold discardCand
  cases h : lookupA m k with
  | some cs =>
    rw [lookupA_setA]
    by_cases hk : u = k <;> simp [hk, h]
  | none =>
    rw [lookupA_append]
    by_cases hk : u = k
    · subst hk
      rw [h, orElse_eval_none, lookupA_cons, if_pos rfl, if_pos rfl]
      simp
    · rw [if_neg hk]
      cases hmk : lookupA m u with
      | some w => rw [orElse_eval_some]
      | none => rw [orElse_eval_none, lookupA_single k u [] hk]

theorem nodup_keysA_discardCand (m : List (String × List Record)) (k : String)
    (r : Record) (h : (keysA m).Nodup) : (keysA (discardCand m k r)).Nodup := by
  unfold discardCand
  cases hl : lookupA m k with
  | some cs => exact nodup_keysA_setA m k _ h
  | none =>
    have hk : k ∉ keysA m := (lookupA_eq_none_iff m k).mp hl
    have : keysA (m ++ [(k, [])]) = keysA m ++ [k] := by simp [keysA]
    rw [this]
    simp [List.nodup_append, h, hk]

end LektorRedirect

namespace LektorRedirect

theorem buildRaw_fst (records : List Record)
    (acc : List (String × List Record) × List (String × Record)) :
    (records.foldl (fun acc record =>
        (multimapStep acc.1 record, rbuStep acc.2 record)) acc).1 =
      records.foldl multimapStep acc.1 := by
  induction records generalizing acc with
  | nil => rfl
  | cons r rs ih => exact ih _

theorem buildRaw_snd (records : List Record)
    (acc : List (String × List Record) × List (String × Record)) :
    (records.foldl (fun acc record =>
        (multimapStep acc.1 record, rbuStep acc.2 record)) acc).2 =
      records.foldl rbuStep acc.2 := by
  induction records generalizing acc with
  | nil => rfl
  | cons r rs ih => exact ih _

/-- The last record in walk order whose canonical url is `u` — the value
`records_by_url[u]` ends up with. -/
def lastWithUrl (records : List Record) (u : String) : Option Record :=
  (records.filter (fun r => r.url_path == u)).getLast?

theorem lastWithUrl_cons (r : Record) (rs : List Record) (u : String) :
    lastWithUrl (r :: rs) u =
      if r.url_path = u then (lastWithUrl rs u).orElse (fun _ => some r)
      else lastWithUrl rs u := by
  unfold lastWithUrl
  by_cases h : r.url_path = u
  · rw [if_pos h, List.filter_cons_of_pos (by simp [h])]
    cases hf : (rs.filter (fun x => x.url_path == u)).getLast? with
    | none =>
      rw [orElse_eval_none]
      have : rs.filter (fun x => x.url_path == u) = [] := by
        cases hl : rs.filter (fun x => x.url_path == u) with
        | nil => rfl
        | cons a l => rw [hl] at hf; simp [List.getLast?_concat] at hf
      rw [this]
      rfl
    | some w =>
      rw [orElse_eval_some]
      cases hl : rs.filter (fun x => x.url_path == u) with
      | nil => rw [hl] at hf; simp at hf
      | cons a l =>
        rw [hl] at hf
        rw [← hf, List.getLast?_cons_cons]
  · rw [if_neg h, List.filter_cons_of_neg (by simp [h])]

theorem foldl_rbuStep (records : List Record) (acc : List (String × Record))
    (u : String) :
    lookupA (records.foldl rbuStep acc) u =
      (lastWithUrl records u).orElse (fun _ => lookupA acc u) := by
  induction records generalizing acc with
  | nil =>
    unfold lastWithUrl
    simp only [List.foldl_nil, List.filter_nil, List.getLast?_nil]
    rfl
  | cons r rs ih =>
    show lookupA (rs.foldl rbuStep (rbuStep acc r)) u = _
    rw [ih, lastWithUrl_cons]
    unfold rbuStep
    rw [lookupA_setA]
    by_cases h : r.url_path = u
    · rw [if_pos h]
      cases hlw : lastWithUrl rs u with
      | none =>
        rw [orElse_eval_none, orElse_eval_none, orElse_eval_some]
        rw [if_pos h.symm]
      | some w => rfl
    · rw [if_neg h]
      cases hlw : lastWithUrl rs u with
      | none =>
        rw [orElse_eval_none, orElse_eval_none]
        rw [if_neg (fun hu => h hu.symm)]
      | some w => rfl

theorem lookupA_buildRaw_rbu (pad : Pad) (u : String) :
    lookupA (buildRaw pad).2 u = lastWithUrl pad.records u := by
  unfold buildRaw
  rw [buildRaw_snd]
  rw [foldl_rbuStep]
  cases h : lastWithUrl pad.records u with
  | none => rw [orElse_eval_none]; rfl
  | some w => rw [orElse_eval_some]

theorem lastWithUrl_eq_none_iff (records : List Record) (u : String) :
    lastWithUrl records u = none ↔ ∀ r ∈ records, r.url_path ≠ u := by
  unfold lastWithUrl
  rw [List.getLast?_eq_none_iff]
  rw [List.filter_eq_nil_iff]
  constructor
  · intro h r hr hu
    exact h r hr (by simp [hu])
  · intro h r hr hb
    exact h r hr (by simpa using hb)

theorem lastWithUrl_mem (records : List Record) (u : String) (r : Record)
    (h : lastWithUrl records u = some r) : r ∈ records ∧ r.url_path = u := by
  unfold lastWithUrl at h
  have hmem : r ∈ records.filter (fun x => x.url_path == u) :=
    List.mem_of_mem_getLast? (by rw [h]; rfl)
  rw [List.mem_filter] at hmem
  exact ⟨hmem.1, by simpa using hmem.2⟩

theorem lastWithUrl_unique (records : List Record) (u : String) (r : Record)
    (hurls : (records.map Record.url_path).Nodup)
    (hr : r ∈ records) (hu : r.url_path = u) : lastWithUrl records u = some r := by
  cases h : lastWithUrl records u with
  | none =>
    exact absurd hu ((lastWithUrl_eq_none_iff records u).mp h r hr)
  | some w =>
    obtain ⟨hwmem, hwu⟩ := lastWithUrl_mem records u w h
    have := List.inj_on_of_nodup_map hurls hwmem hr (by rw [hwu, hu])
    rw [this]

end LektorRedirect

namespace LektorRedirect

/-- Anything in the multimap that compares equal to `r` is `r` itself
(holds trivially before `r` is first added, and is preserved by adding
`r`). -/
def OnlySelfBeq (m : List (String × List Record)) (r : Record) : Prop :=
  ∀ u cs, lookupA m u = some cs → ∀ c ∈ cs, Record.beq c r = true → c = r

theorem mem_getD_lookupA_addCand (m : List (String × List Record)) (k : String)
    (r : Record) (hP : OnlySelfBeq m r) (u : String) (c : Record) :
    c ∈ (lookupA (addCand m k r) u).getD [] ↔
      c ∈ (lookupA m u).getD [] ∨ (u = k ∧ c = r) := by
  rw [lookupA_addCand]
  by_cases hk : u = k
  · rw [if_pos hk]
    subst hk
    cases h : lookupA m u with
    | none => simp
    | some cs =>
      have hred : (match some cs with
          | some cs => if cs.any (fun c => Record.beq c r) then cs else cs ++ [r]
          | none => [r]) =
          if cs.any (fun c => Record.beq c r) then cs else cs ++ [r] := rfl
      rw [hred]
      by_cases hany : cs.any (fun x => Record.beq x r) = true
      · rw [if_pos hany]
        simp only [Option.getD_some]
        constructor
        · intro hc; exact Or.inl (by simpa [h] using hc)
        · intro hc
          rcases hc with hc | hc
          · simpa [h] using hc
          · obtain ⟨x, hxmem, hxbeq⟩ := List.any_eq_true.mp hany
            have hxr : x = r := hP u cs h x hxmem hxbeq
            rw [hc.2, ← hxr]
            exact hxmem
      · rw [if_neg hany]
        simp only [Option.getD_some, List.mem_append, List.mem_singleton]
        constructor
        · intro hc
          rcases hc with hc | hc
          · exact Or.inl (by simpa [h] using hc)
          · exact Or.inr ⟨by trivial, hc⟩
        · intro hc
          rcases hc with hc | hc
          · exact Or.inl (by simpa [h] using hc)
          · exact Or.inr hc.2
  · rw [if_neg hk]
    constructor
    · exact Or.inl
    · intro hc
      rcases hc with hc | hc
      · exact hc
      · exact absurd hc.1 hk

theorem onlySelfBeq_addCand (m : List (String × List Record)) (k : String)
    (r : Record) (hP : OnlySelfBeq m r) : OnlySelfBeq (addCand m k r) r := by
  intro u cs hcs c hc hbeq
  rw [lookupA_addCand] at hcs
  by_cases hk : u = k
  · rw [if_pos hk] at hcs
    injection hcs with hcs
    subst hcs
    cases h : lookupA m k with
    | none =>
      rw [h] at hc
      simpa using hc
    | some cs0 =>
      rw [h] at hc
      have hred : (match some cs0 with
          | some cs => if cs.any (fun c => Record.beq c r) then cs else cs ++ [r]
          | none => [r]) =
          if cs0.any (fun c => Record.beq c r) then cs0 else cs0 ++ [r] := rfl
      rw [hred] at hc
      by_cases hany : cs0.any (fun x => Record.beq x r) = true
      · rw [if_pos hany] at hc
        exact hP k cs0 (hk ▸ h) c hc hbeq
      · rw [if_neg hany] at hc
        rcases List.mem_append.mp hc with hc | hc
        · exact hP k cs0 (hk ▸ h) c hc hbeq
        · simpa using hc
  · rw [if_neg hk] at hcs
    exact hP u cs hcs c hc hbeq

theorem mem_getD_foldl_addCand (urls : List String) (r : Record)
    (m : List (String × List Record)) (hP : OnlySelfBeq m r) (u : String) (c : Record) :
    c ∈ (lookupA (urls.foldl (fun m u => addCand m u r) m) u).getD [] ↔
      c ∈ (lookupA m u).getD [] ∨ (u ∈ urls ∧ c = r) := by
  induction urls generalizing m with
  | nil => simp
  | cons k ks ih =>
    show c ∈ (lookupA (ks.foldl (fun m u => addCand m u r) (addCand m k r)) u).getD [] ↔ _
    rw [ih (addCand m k r) (onlySelfBeq_addCand m k r hP)]
    rw [mem_getD_lookupA_addCand m k r hP]
    constructor
    · intro hc
      rcases hc with (hc | hc) | hc
      · exact Or.inl hc
      · exact Or.inr ⟨by simp [hc.1], hc.2⟩
      · exact Or.inr ⟨by simp [hc.1], hc.2⟩
    · intro hc
      rcases hc with hc | hc
      · exact Or.inl (Or.inl hc)
      · rcases List.mem_cons.mp hc.1 with hu | hu
        · exact Or.inl (Or.inr ⟨hu, hc.2⟩)
        · exact Or.inr ⟨hu, hc.2⟩

theorem onlySelfBeq_foldl_addCand (urls : List String) (r : Record)
    (m : List (String × List Record)) (hP : OnlySelfBeq m r) :
    OnlySelfBeq (urls.foldl (fun m u => addCand m u r) m) r := by
  induction urls generalizing m with
  | nil => exact hP
  | cons k ks ih => exact ih _ (onlySelfBeq_addCand m k r hP)

end LektorRedirect

namespace LektorRedirect

/-- Phase-1 multimap membership: under the walk invariant that record
paths are unique, a record sits in the candidate set of a url exactly
when it is a walked record declaring that url. -/
theorem mem_getD_foldl_multimapStep (records : List Record)
    (m : List (String × List Record))
    (hdisj : ∀ u c, c ∈ (lookupA m u).getD [] → ∀ r ∈ records, c.path ≠ r.path)
    (hpaths : (records.map Record.path).Nodup) (u : String) (c : Record) :
    c ∈ (lookupA (records.foldl multimapStep m) u).getD [] ↔
      c ∈ (lookupA m u).getD [] ∨ (c ∈ records ∧ u ∈ _get_redirect_urls c) := by
  induction records generalizing m with
  | nil => simp
  | cons r rs ih =>
    show c ∈ (lookupA (rs.foldl multimapStep (multimapStep m r)) u).getD [] ↔ _
    have hPm : OnlySelfBeq m r := by
      intro u0 cs hcs x hx hbeq
      exfalso
      refine hdisj u0 x (by rw [hcs]; exact hx) r (List.mem_cons_self r rs) ?_
      simpa [Record.beq] using hbeq
    have hstep : ∀ u0 c0, c0 ∈ (lookupA (multimapStep m r) u0).getD [] ↔
        c0 ∈ (lookupA m u0).getD [] ∨ (u0 ∈ _get_redirect_urls r ∧ c0 = r) := by
      intro u0 c0
      exact mem_getD_foldl_addCand (_get_redirect_urls r) r m hPm u0 c0
    have hdisj2 : ∀ u0 c0, c0 ∈ (lookupA (multimapStep m r) u0).getD [] →
        ∀ x ∈ rs, c0.path ≠ x.path := by
      intro u0 c0 hc0 x hx
      rcases (hstep u0 c0).mp hc0 with hc0 | hc0
      · exact hdisj u0 c0 hc0 x (List.mem_cons_of_mem r hx)
      · rw [hc0.2]
        rw [List.map_cons, List.nodup_cons] at hpaths
        intro hpp
        exact hpaths.1 (hpp ▸ List.mem_map_of_mem Record.path hx)
    rw [ih (multimapStep m r) hdisj2
      (by rw [List.map_cons, List.nodup_cons] at hpaths; exact hpaths.2)]
    rw [hstep]
    constructor
    · intro hc
      rcases hc with (hc | hc) | hc
      · exact Or.inl hc
      · exact Or.inr ⟨hc.2 ▸ List.mem_cons_self r rs, hc.2 ▸ hc.1⟩
      · exact Or.inr ⟨List.mem_cons_of_mem r hc.1, hc.2⟩
    · intro hc
      rcases hc with hc | hc
      · exact Or.inl (Or.inl hc)
      · rcases List.mem_cons.mp hc.1 with hcr | hcr
        · exact Or.inl (Or.inr ⟨hcr ▸ hc.2, hcr⟩)
        · exact Or.inr ⟨hcr, hc.2⟩

theorem mem_getD_buildRaw (pad : Pad)
    (hpaths : (pad.records.map Record.path).Nodup) (u : String) (c : Record) :
    c ∈ (lookupA (buildRaw pad).1 u).getD [] ↔
      c ∈ pad.records ∧ u ∈ _get_redirect_urls c := by
  unfold buildRaw
  rw [buildRaw_fst]
  rw [mem_getD_foldl_multimapStep pad.records [] (by simp [lookupA_nil]) hpaths]
  simp [lookupA_nil]

/-- Discard-phase membership: a candidate survives exactly when it is
not (record-)equal to the url table entry of its key. -/
theorem mem_getD_foldl_discard (items : List (String × Record))
    (m : List (String × List Record)) (u : String) (c : Record) :
    c ∈ (lookupA (items.foldl (fun m e => discardCand m e.1 e.2) m) u).getD [] ↔
      c ∈ (lookupA m u).getD [] ∧
        ∀ e ∈ items, e.1 = u → Record.beq c e.2 = false := by
  induction items generalizing m with
  | nil => simp
  | cons e es ih =>
    show c ∈ (lookupA (es.foldl (fun m e => discardCand m e.1 e.2)
        (discardCand m e.1 e.2)) u).getD [] ↔ _
    rw [ih]
    rw [lookupA_discardCand_getD]
    by_cases hk : u = e.1
    · rw [if_pos hk]
      rw [List.mem_filter]
      constructor
      · intro hc
        refine ⟨by rw [hk]; exact hc.1.1, ?_⟩
        intro e2 he2 hu
        rcases List.mem_cons.mp he2 with he2 | he2
        · subst he2
          simpa using hc.1.2
        · exact hc.2 e2 he2 hu
      · intro hc
        refine ⟨⟨by rw [← hk]; exact hc.1, ?_⟩, ?_⟩
        · simpa using hc.2 e (List.mem_cons_self e es) hk.symm
        · intro e2 he2 hu
          exact hc.2 e2 (List.mem_cons_of_mem e he2) hu
    · rw [if_neg hk]
      constructor
      · intro hc
        refine ⟨hc.1, ?_⟩
        intro e2 he2 hu
        rcases List.mem_cons.mp he2 with he2 | he2
        · exact absurd (he2 ▸ hu) (fun h => hk h.symm)
        · exact hc.2 e2 he2 hu
      · intro hc
        exact ⟨hc.1, fun e2 he2 hu => hc.2 e2 (List.mem_cons_of_mem e he2) hu⟩

end LektorRedirect

namespace LektorRedirect

theorem nodup_keysA_foldl_addCand (urls : List String) (r : Record)
    (m : List (String × List Record)) (h : (keysA m).Nodup) :
    (keysA (urls.foldl (fun m u => addCand m u r) m)).Nodup := by
  induction urls generalizing m with
  | nil => exact h
  | cons k ks ih => exact ih _ (nodup_keysA_addCand m k r h)

theorem nodup_keysA_foldl_multimapStep (records : List Record)
    (m : List (String × List Record)) (h : (keysA m).Nodup) :
    (keysA (records.foldl multimapStep m)).Nodup := by
  induction records generalizing m with
  | nil => exact h
  | cons r rs ih => exact ih _ (nodup_keysA_foldl_addCand _ r m h)

theorem nodup_keysA_foldl_discard (items : List (String × Record))
    (m : List (String × List Record)) (h : (keysA m).Nodup) :
    (keysA (items.foldl (fun m e => discardCand m e.1 e.2) m)).Nodup := by
  induction items generalizing m with
  | nil => exact h
  | cons e es ih => exact ih _ (nodup_keysA_discardCand m e.1 e.2 h)

theorem nodup_keysA_foldl_rbuStep (records : List Record)
    (m : List (String × Record)) (h : (keysA m).Nodup) :
    (keysA (records.foldl rbuStep m)).Nodup := by
  induction records generalizing m with
  | nil => exact h
  | cons r rs ih => exact ih _ (nodup_keysA_setA m r.url_path r h)

theorem mem_iff_lookupA {α : Type} (m : List (String × α)) (k : String) (v : α)
    (h : (keysA m).Nodup) : (k, v) ∈ m ↔ lookupA m k = some v := by
  induction m with
  | nil => simp [lookupA_nil]
  | cons e es ih =>
    rw [List.mem_cons, lookupA_cons]
    rw [keysA, List.map_cons, List.nodup_cons] at h
    by_cases hek : e.1 = k
    · rw [if_pos hek]
      constructor
      · intro hm
        rcases hm with hm | hm
        · rw [← hm]
        · exfalso
          apply h.1
          rw [hek]
          exact List.mem_map_of_mem (·.1) hm
      · intro hl
        injection hl with hl
        left
        rw [← hl, ← hek]
    · rw [if_neg hek]
      rw [ih h.2]
      constructor
      · intro hm
        rcases hm with hm | hm
        · exact absurd (congrArg Prod.fst hm).symm hek
        · exact hm
      · exact Or.inr

theorem lookupA_filterMap_enum (m : List (String × List Record))
    (enum : List Record → List Record) (u : String) (h : (keysA m).Nodup) :
    lookupA (m.filterMap
        (fun e => if e.2.isEmpty then none else some (e.1, enum e.2))) u =
      match lookupA m u with
      | none => none
      | some cs => if cs.isEmpty then none else some (enum cs) := by
  induction m with
  | nil => simp [lookupA_nil]
  | cons e es ih =>
    rw [keysA, List.map_cons, List.nodup_cons] at h
    rw [List.filterMap_cons, lookupA_cons]
    by_cases hek : e.1 = u
    · rw [if_pos hek]
      by_cases hemp : e.2.isEmpty = true
      · rw [if_pos hemp]
        have hnone : lookupA es u = none := by
          rw [lookupA_eq_none_iff]
          rw [hek] at h
          exact h.1
        rw [ih h.2, hnone]
        simp [List.isEmpty_iff.mp hemp]
      · rw [if_neg hemp]
        rw [lookupA_cons, if_pos hek]
        simp only []
        rw [if_neg hemp]
    · rw [if_neg hek]
      by_cases hemp : e.2.isEmpty = true
      · rw [if_pos hemp]
        exact ih h.2
      · rw [if_neg hemp]
        rw [lookupA_cons, if_neg hek]
        exact ih h.2

theorem build_redirects_def (enum : List Record → List Record) (pad : Pad) :
    (RedirectIndex.build enum pad)._redirects =
      ((buildRaw pad).2.foldl (fun m e => discardCand m e.1 e.2)
          (buildRaw pad).1).filterMap
        (fun e => if e.2.isEmpty then none else some (e.1, enum e.2)) := rfl

theorem build_rbu_def (enum : List Record → List Record) (pad : Pad) :
    (RedirectIndex.build enum pad)._records_by_url = (buildRaw pad).2 := rfl

theorem nodup_keysA_buildRaw_fst (pad : Pad) : (keysA (buildRaw pad).1).Nodup := by
  unfold buildRaw
  rw [buildRaw_fst]
  exact nodup_keysA_foldl_multimapStep pad.records [] (by simp [keysA])

theorem nodup_keysA_buildRaw_snd (pad : Pad) : (keysA (buildRaw pad).2).Nodup := by
  unfold buildRaw
  rw [buildRaw_snd]
  exact nodup_keysA_foldl_rbuStep pad.records [] (by simp [keysA])

theorem nodup_keysA_discarded (pad : Pad) :
    (keysA ((buildRaw pad).2.foldl (fun m e => discardCand m e.1 e.2)
      (buildRaw pad).1)).Nodup :=
  nodup_keysA_foldl_discard _ _ (nodup_keysA_buildRaw_fst pad)

/-- A record declares a redirect from `u` when it is one of the walked
records and `u` is among its normalized redirect urls. -/
def declares (pad : Pad) (u : String) (c : Record) : Prop :=
  c ∈ pad.records ∧ u ∈ _get_redirect_urls c

instance (pad : Pad) (u : String) (c : Record) : Decidable (declares pad u c) := by
  unfold declares
  infer_instance

/-- Master membership characterization of the built index: a record is a
candidate for `u` exactly when it declares `u` and was not removed by
the redirect-to-self pass (record-equal to the url table entry for `u`). -/
theorem mem_getD_build (enum : List Record → List Record) (pad : Pad)
    (henum : ∀ l, (enum l).Perm l)
    (hpaths : (pad.records.map Record.path).Nodup) (u : String) (c : Record) :
    c ∈ (lookupA (RedirectIndex.build enum pad)._redirects u).getD [] ↔
      declares pad u c ∧
        ∀ rstar, lastWithUrl pad.records u = some rstar →
          Record.beq c rstar = false := by
  rw [build_redirects_def]
  rw [show (lookupA ((((buildRaw pad).2.foldl (fun m e => discardCand m e.1 e.2)
      (buildRaw pad).1)).filterMap
        (fun e => if e.2.isEmpty then none else some (e.1, enum e.2))) u) =
    (match lookupA ((buildRaw pad).2.foldl (fun m e => discardCand m e.1 e.2)
        (buildRaw pad).1) u with
      | none => none
      | some cs => if cs.isEmpty then none else some (enum cs)) from
    lookupA_filterMap_enum _ enum u (nodup_keysA_discarded pad)]
  have hmem1 : ∀ x, x ∈ ((match lookupA ((buildRaw pad).2.foldl
      (fun m e => discardCand m e.1 e.2) (buildRaw pad).1) u with
      | none => none
      | some cs => if cs.isEmpty then none else some (enum cs)) : Option (List Record)).getD [] ↔
      x ∈ (lookupA ((buildRaw pad).2.foldl (fun m e => discardCand m e.1 e.2)
        (buildRaw pad).1) u).getD [] := by
    intro x
    cases hl : lookupA ((buildRaw pad).2.foldl (fun m e => discardCand m e.1 e.2)
        (buildRaw pad).1) u with
    | none => simp
    | some cs =>
      by_cases hemp : cs.isEmpty = true
      · simp [hemp, List.isEmpty_iff.mp hemp]
      · simp only [Option.getD_some]
        rw [if_neg hemp]
        simp only [Option.getD_some]
        exact List.Perm.mem_iff (henum cs)
  rw [hmem1 c]
  rw [mem_getD_foldl_discard]
  rw [mem_getD_buildRaw pad hpaths]
  unfold declares
  constructor
  · intro h
    refine ⟨h.1, ?_⟩
    intro rstar hrs
    apply h.2 (u, rstar)
    · rw [mem_iff_lookupA _ _ _ (nodup_keysA_buildRaw_snd pad)]
      rw [lookupA_buildRaw_rbu]
      exact hrs
    · rfl
  · intro h
    refine ⟨h.1, ?_⟩
    intro e he heu
    apply h.2 e.2
    rw [← lookupA_buildRaw_rbu]
    rw [← mem_iff_lookupA _ _ _ (nodup_keysA_buildRaw_snd pad)]
    rw [← heu]
    exact he

end LektorRedirect

namespace LektorRedirect

theorem keysA_filterMap_sublist (m : List (String × List Record))
    (enum : List Record → List Record) :
    (keysA (m.filterMap
      (fun e => if e.2.isEmpty then none else some (e.1, enum e.2)))).Sublist
      (keysA m) := by
  induction m with
  | nil => simp [keysA]
  | cons e es ih =>
    rw [List.filterMap_cons]
    by_cases hemp : e.2.isEmpty = true
    · rw [if_pos hemp]
      exact List.Sublist.cons e.1 ih
    · rw [if_neg hemp]
      exact List.Sublist.cons₂ e.1 ih

theorem nodup_build_keys (enum : List Record → List Record) (pad : Pad) :
    (RedirectIndex.build enum pad).keys.Nodup := by
  have h : (RedirectIndex.build enum pad).keys =
      keysA (RedirectIndex.build enum pad)._redirects := rfl
  rw [h, build_redirects_def]
  exact (nodup_keysA_discarded pad).sublist (keysA_filterMap_sublist _ enum)

theorem lookup_build_shape (enum : List Record → List Record) (pad : Pad)
    (u : String) (cs : List Record)
    (h : lookupA (RedirectIndex.build enum pad)._redirects u = some cs) :
    ∃ cs0, cs = enum cs0 ∧ cs0 ≠ [] := by
  rw [build_redirects_def,
    lookupA_filterMap_enum _ enum u (nodup_keysA_discarded pad)] at h
  cases hl : lookupA ((buildRaw pad).2.foldl (fun m e => discardCand m e.1 e.2)
      (buildRaw pad).1) u with
  | none => rw [hl] at h; simp at h
  | some cs0 =>
    rw [hl] at h
    have hred : (match some cs0 with
        | none => none
        | some cs => if cs.isEmpty = true then none else some (enum cs)) =
        if cs0.isEmpty = true then none else some (enum cs0) := rfl
    rw [hred] at h
    by_cases hemp : cs0.isEmpty = true
    · rw [if_pos hemp] at h
      simp at h
    · rw [if_neg hemp] at h
      injection h with h
      exact ⟨cs0, h.symm, fun hn => hemp (by rw [hn]; rfl)⟩

/-- Shared helper: `__getitem__` succeeds on every key of a built index
(the candidate lists stored at construction are all nonempty). -/
theorem getitem_ok_of_mem_keys (enum : List Record → List Record) (pad : Pad)
    (henum : ∀ l, (enum l).Perm l) (u : String)
    (hu : u ∈ (RedirectIndex.build enum pad).keys) :
    ∃ r, (RedirectIndex.build enum pad).getitem u = .ok r := by
  have hk : u ∈ keysA (RedirectIndex.build enum pad)._redirects := hu
  have hlookup : lookupA (RedirectIndex.build enum pad)._redirects u ≠ none :=
    fun hn => ((lookupA_eq_none_iff _ u).mp hn) hk
  cases hl : lookupA (RedirectIndex.build enum pad)._redirects u with
  | none => exact absurd hl hlookup
  | some cs =>
    obtain ⟨cs0, hcs, hne⟩ := lookup_build_shape enum pad u cs hl
    have hcsne : cs ≠ [] := by
      rw [hcs]
      intro h
      exact hne (List.Perm.eq_nil (h ▸ (henum cs0).symm))
    obtain ⟨t, ts, hts⟩ := List.exists_cons_of_ne_nil hcsne
    refine ⟨t, ?_⟩
    unfold RedirectIndex.getitem
    rw [hl, hts]

/-- C10: in every constructor-built index, every key carries a nonempty
candidate list, so `__getitem__` succeeds on every key yielded by
iteration and its internal `assert len(targets) > 0` can never fail
(a missing key raises `KeyError`, never the assertion). -/
theorem build_getitem_total (enum : List Record → List Record) (pad : Pad)
    (henum : ∀ l, (enum l).Perm l) :
    (∀ u ∈ (RedirectIndex.build enum pad).keys,
      ∃ r, (RedirectIndex.build enum pad).getitem u = .ok r) ∧
    (∀ u, (RedirectIndex.build enum pad).getitem u ≠ .error .assertionError) := by
  constructor
  · intro u hu
    exact getitem_ok_of_mem_keys enum pad henum u hu
  · intro u
    cases hl : lookupA (RedirectIndex.build enum pad)._redirects u with
    | none =>
      unfold RedirectIndex.getitem
      rw [hl]
      intro h
      injection h with h
      exact absurd h (by decide)
    | some cs =>
      obtain ⟨cs0, hcs, hne⟩ := lookup_build_shape enum pad u cs hl
      have hcsne : cs ≠ [] := by
        rw [hcs]
        intro h
        exact hne (List.Perm.eq_nil (h ▸ (henum cs0).symm))
      obtain ⟨t, ts, hts⟩ := List.exists_cons_of_ne_nil hcsne
      unfold RedirectIndex.getitem
      rw [hl, hts]
      intro h
      exact Except.noConfusion h

/-- The two records of the concrete ambiguity example: both declare a
redirect from `/dup/`; `recA` is walked first. -/
def recA : Record := ⟨"/a", "/a/", some "/", .vals ["/dup"]⟩

/-- Second declarer of `/dup/` in the concrete ambiguity example. -/
def recB : Record := ⟨"/b", "/b/", some "/", .vals ["/dup"]⟩

/-- Pad holding the two ambiguous declarers, in walk order `[recA, recB]`. -/
def padAB : Pad := ⟨[recA, recB], fun _ => none, "/"⟩

/-- Closed instance exercising `build_getitem_total` on a concrete pad,
with the identity permutation standing in for the set enumeration. -/
theorem build_getitem_total_witness :
    ((fun (l : List Record) => l) [recA]).Perm [recA] ∧
    "/dup/" ∈ (RedirectIndex.build (fun l => l) padAB).keys ∧
    (∃ r, (RedirectIndex.build (fun l => l) padAB).getitem "/dup/" = .ok r) ∧
    (RedirectIndex.build (fun l => l) padAB).getitem "/missing/" ≠
      .error .assertionError :=
  ⟨List.Perm.refl _, by decide,
   (build_getitem_total (fun l => l) padAB (fun l => List.Perm.refl l)).1
     "/dup/" (by decide),
   (build_getitem_total (fun l => l) padAB (fun l => List.Perm.refl l)).2
     "/missing/"⟩

end LektorRedirect

namespace LektorRedirect

theorem beq_self (r : Record) : Record.beq r r = true := by
  simp [Record.beq]

/-- Shared helper: no key of a built index has a candidate whose own
canonical url equals that key (over a valid walk). -/
theorem build_no_self_candidates_aux (enum : List Record → List Record) (pad : Pad)
    (henum : ∀ l, (enum l).Perm l)
    (hpaths : (pad.records.map Record.path).Nodup)
    (hurls : (pad.records.map Record.url_path).Nodup) :
    ∀ u cs, lookupA (RedirectIndex.build enum pad)._redirects u = some cs →
      ∀ c ∈ cs, c.url_path ≠ u := by
  intro u cs hlook c hc hcu
  have hmem : c ∈ (lookupA (RedirectIndex.build enum pad)._redirects u).getD [] := by
    rw [hlook]
    exact hc
  rw [mem_getD_build enum pad henum hpaths] at hmem
  obtain ⟨⟨hcrec, _⟩, hnob⟩ := hmem
  have hlast : lastWithUrl pad.records u = some c :=
    lastWithUrl_unique pad.records u c hurls hcrec hcu
  have := hnob c hlast
  rw [beq_self c] at this
  exact Bool.noConfusion this

/-- C5: in every constructor-built index over a valid walk (records have
pairwise distinct identities and pairwise distinct canonical urls), no
key has among its candidates a record whose own canonical url equals
that key: self-redirects contribute no entry for their own url.  The
removal is silent — the constructor is a pure function of the walked
records and emits nothing to the reporter (its type carries no message
channel), so no diagnostic accompanies it. -/
theorem build_no_self_candidates (enum : List Record → List Record) (pad : Pad)
    (henum : ∀ l, (enum l).Perm l)
    (hpaths : (pad.records.map Record.path).Nodup)
    (hurls : (pad.records.map Record.url_path).Nodup) :
    ∀ u cs, lookupA (RedirectIndex.build enum pad)._redirects u = some cs →
      ∀ c ∈ cs, c.url_path ≠ u :=
  build_no_self_candidates_aux enum pad henum hpaths hurls

/-- Record that declares a redirect from its own url (dropped at
construction). -/
def recSelf : Record := ⟨"/s", "/s/", some "/", .vals ["/s", "../s"]⟩

/-- Record whose declared redirect url is `recSelf`'s canonical url. -/
def recOther : Record := ⟨"/t", "/t/", some "/", .vals ["/s"]⟩

/-- Pad with a self-redirecting record and a second declarer of the same
url. -/
def padSelf : Pad := ⟨[recSelf, recOther], fun _ => none, "/"⟩

/-- Closed instance exercising `build_no_self_candidates`: on `padSelf`
the key `/s/` keeps only `recOther`; `recSelf`'s self-entry is gone. -/
theorem build_no_self_candidates_witness :
    ((fun (l : List Record) => l) [recOther]).Perm [recOther] ∧
    (padSelf.records.map Record.path).Nodup ∧
    (padSelf.records.map Record.url_path).Nodup ∧
    lookupA (RedirectIndex.build (fun l => l) padSelf)._redirects "/s/" =
      some [recOther] ∧
    recOther.url_path ≠ "/s/" :=
  ⟨List.Perm.refl _, by decide, by decide, by decide,
   build_no_self_candidates (fun l => l) padSelf (fun l => List.Perm.refl l)
     (by decide) (by decide) "/s/" [recOther] (by decide) recOther
     (by decide)⟩

/-- C9: a record whose redirect-field lookup signals `TypeError` (not
indexable, e.g. a non-record asset) or `KeyError` (no such field) is
treated as declaring no redirects: both the raw extraction and the
conflict-filtered `get_redirect_urls` return the empty set, no
diagnostics are emitted, and the cached index is left untouched, rather
than any exception propagating. -/
theorem get_redirect_urls_field_error (enum : List Record → List Record)
    (st : PluginState) (pad : Pad) (verbosity : Nat) (record : Record)
    (h : record.redirect_from = .typeError ∨ record.redirect_from = .keyError) :
    _get_redirect_urls record = [] ∧
    get_redirect_urls enum st pad verbosity record = ([], [], st) := by
  have h1 : _get_redirect_urls record = [] := by
    rcases h with h | h <;> simp [_get_redirect_urls, h]
  refine ⟨h1, ?_⟩
  unfold get_redirect_urls
  rw [h1]
  simp

/-- An image attachment: field lookup raises `TypeError`. -/
def recAsset : Record := ⟨"/images/pic.jpg", "/images/pic.jpg", some "/", .typeError⟩

/-- Closed instance exercising `get_redirect_urls_field_error` on a
non-record asset. -/
theorem get_redirect_urls_field_error_witness :
    (recAsset.redirect_from = .typeError ∨ recAsset.redirect_from = .keyError) ∧
    get_redirect_urls (fun l => l) ⟨none⟩ padSelf 0 recAsset = ([], [], ⟨none⟩) :=
  ⟨Or.inl rfl,
   (get_redirect_urls_field_error (fun l => l) ⟨none⟩ padSelf 0 recAsset
     (Or.inl rfl)).2⟩

end LektorRedirect

namespace LektorRedirect

instance {ε α : Type} [DecidableEq ε] [DecidableEq α] : DecidableEq (Except ε α) :=
  fun a b =>
    match a, b with
    | .ok x, .ok y =>
      if h : x = y then .isTrue (by rw [h])
      else .isFalse (fun hh => h (by injection hh))
    | .error x, .error y =>
      if h : x = y then .isTrue (by rw [h])
      else .isFalse (fun hh => h (by injection hh))
    | .ok _, .error _ => .isFalse (fun hh => Except.noConfusion hh)
    | .error _, .ok _ => .isFalse (fun hh => Except.noConfusion hh)

/-- The first record in walk order declaring a redirect from `u`. -/
def firstDeclarer (pad : Pad) (u : String) : Option Record :=
  pad.records.find? (fun r => decide (u ∈ _get_redirect_urls r))

/-- C1 fails as stated: which candidate `__getitem__` returns is decided
by `list(targets)` over a CPython `set` of records, whose enumeration
order is hash-based (seeded string hashing of record paths), not
insertion order.  The embedding therefore leaves the set linearization
abstract; reversal is one valid linearization (a permutation), and under
it the lookup returns the *second* declarer seen during the tree walk,
not the first, refuting "first in insertion order (first seen during the
tree walk)". -/
theorem build_getitem_not_first_seen :
    (List.reverse [recA, recB]).Perm [recA, recB] ∧
    firstDeclarer padAB "/dup/" = some recA ∧
    (RedirectIndex.build List.reverse padAB).getitem "/dup/" = .ok recB ∧
    recB ≠ recA := by
  refine ⟨by decide, by decide, by decide, by decide⟩

/-- C1 amended: `__getitem__` on a built index returns one fixed record
among those declaring the looked-up url — which one is
implementation-defined set enumeration (any permutation of the
candidates), stable across lookups of the same index because the list is
materialized once at construction — and plain iteration yields only the
mapping keys, each exactly once, never exposing the other candidates. -/
theorem build_getitem_returns_declarer (enum : List Record → List Record)
    (pad : Pad) (henum : ∀ l, (enum l).Perm l)
    (hpaths : (pad.records.map Record.path).Nodup) :
    (∀ u r, (RedirectIndex.build enum pad).getitem u = .ok r →
      declares pad u r) ∧
    (RedirectIndex.build enum pad).keys.Nodup := by
  constructor
  · intro u r hok
    unfold RedirectIndex.getitem at hok
    cases hl : lookupA (RedirectIndex.build enum pad)._redirects u with
    | none => rw [hl] at hok; exact Except.noConfusion hok
    | some cs =>
      rw [hl] at hok
      cases hcs : cs with
      | nil => rw [hcs] at hok; exact Except.noConfusion hok
      | cons t ts =>
        rw [hcs] at hok
        injection hok with hok
        have hmem : r ∈ (lookupA (RedirectIndex.build enum pad)._redirects u).getD [] := by
          rw [hl, hcs]
          rw [← hok]
          exact List.mem_cons_self t ts
        exact ((mem_getD_build enum pad henum hpaths u r).mp hmem).1
  · exact nodup_build_keys enum pad

/-- Closed instance exercising `build_getitem_returns_declarer` on the
ambiguous pad with the identity enumeration. -/
theorem build_getitem_returns_declarer_witness :
    ((fun (l : List Record) => l) [recA, recB]).Perm [recA, recB] ∧
    (padAB.records.map Record.path).Nodup ∧
    (RedirectIndex.build (fun l => l) padAB).getitem "/dup/" = .ok recA ∧
    declares padAB "/dup/" recA ∧
    (RedirectIndex.build (fun l => l) padAB).keys.Nodup :=
  ⟨List.Perm.refl _, by decide, by decide,
   (build_getitem_returns_declarer (fun l => l) padAB
     (fun l => List.Perm.refl l) (by decide)).1 "/dup/" recA (by decide),
   (build_getitem_returns_declarer (fun l => l) padAB
     (fun l => List.Perm.refl l) (by decide)).2⟩

end LektorRedirect

namespace LektorRedirect

/-- The existing-record lookup performed by `raise_on_conflict`: the url
table first, then the host resolver with redirect resolution disabled.
"A real record exists at `url_path`" means this yields a record. -/
def existingAt (idx : RedirectIndex) (pad : Pad) (u : String) : Option Record :=
  match lookupA idx._records_by_url u with
  | some r => some r
  | none => pad.resolveNoRedirect u

theorem raise_on_conflict_eq (idx : RedirectIndex) (pad : Pad) (u : String)
    (target : Record) :
    idx.raise_on_conflict pad u target =
      (if target.url_path = u then .error (.toSelf u target)
       else
        match existingAt idx pad u with
        | some e => .error (.shadows u target e)
        | none =>
          match ((lookupA idx._redirects u).getD []).find?
              (fun c => !(Record.beq c target)) with
          | some c => .error (.ambiguous u target c)
          | none => .ok ()) := by
  unfold RedirectIndex.raise_on_conflict existingAt
  by_cases h : target.url_path = u
  · rw [if_pos (by simp [h]), if_pos h]
  · rw [if_neg (by simp [h]), if_neg h]

/-- C2: on a constructor-built index, `raise_on_conflict(url_path,
target)` raises `RedirectToSelfException` exactly when the target's own
url equals `url_path`; otherwise `RedirectShadowsExistingRecordException`
naming the existing record exactly when a real record exists at
`url_path` (url table, then host resolution with redirect resolution
disabled); otherwise `AmbiguousRedirectException` naming another
declaring record exactly when some record other than the target (by
record equality) declares a redirect from `url_path`; otherwise it
returns normally. -/
theorem raise_on_conflict_spec (enum : List Record → List Record) (pad : Pad)
    (henum : ∀ l, (enum l).Perm l)
    (hpaths : (pad.records.map Record.path).Nodup)
    (u : String) (target : Record) :
    ((RedirectIndex.build enum pad).raise_on_conflict pad u target =
        .error (.toSelf u target) ↔ target.url_path = u) ∧
    (∀ e, (RedirectIndex.build enum pad).raise_on_conflict pad u target =
        .error (.shadows u target e) ↔
      target.url_path ≠ u ∧
        existingAt (RedirectIndex.build enum pad) pad u = some e) ∧
    ((∃ c, (RedirectIndex.build enum pad).raise_on_conflict pad u target =
        .error (.ambiguous u target c) ∧ declares pad u c ∧
        Record.beq c target = false) ↔
      (target.url_path ≠ u ∧
        existingAt (RedirectIndex.build enum pad) pad u = none ∧
        ∃ c, declares pad u c ∧ Record.beq c target = false)) ∧
    ((RedirectIndex.build enum pad).raise_on_conflict pad u target = .ok () ↔
      (target.url_path ≠ u ∧
        existingAt (RedirectIndex.build enum pad) pad u = none ∧
        ∀ c, declares pad u c → Record.beq c target = true)) := by
  rw [raise_on_conflict_eq]
  by_cases hself : target.url_path = u
  · rw [if_pos hself]
    refine ⟨by simp [hself], ?_, ?_, ?_⟩
    · intro e
      constructor
      · intro h
        injection h with h
        exact RedirectExc.noConfusion h
      · intro h
        exact absurd hself h.1
    · constructor
      · rintro ⟨c, hc, _⟩
        injection hc with hc
        exact RedirectExc.noConfusion hc
      · rintro ⟨h, _⟩
        exact absurd hself h
    · constructor
      · intro h
        exact Except.noConfusion h
      · rintro ⟨h, _⟩
        exact absurd hself h
  · rw [if_neg hself]
    have hnoself : ¬((Except.error (RedirectExc.toSelf u target) :
        Except RedirectExc Unit) =
        (match existingAt (RedirectIndex.build enum pad) pad u with
         | some e => .error (.shadows u target e)
         | none =>
           match ((lookupA (RedirectIndex.build enum pad)._redirects u).getD
               []).find? (fun c => !(Record.beq c target)) with
           | some c => .error (.ambiguous u target c)
           | none => .ok ())) := by
      cases hex : existingAt (RedirectIndex.build enum pad) pad u with
      | some e =>
        intro h
        injection h with h
        exact RedirectExc.noConfusion h
      | none =>
        cases hf : ((lookupA (RedirectIndex.build enum pad)._redirects u).getD
            []).find? (fun c => !(Record.beq c target)) with
        | some c =>
          intro h
          injection h with h
          exact RedirectExc.noConfusion h
        | none =>
          intro h
          exact Except.noConfusion h
    cases hex : existingAt (RedirectIndex.build enum pad) pad u with
    | some e0 =>
      refine ⟨?_, ?_, ?_, ?_⟩
      · constructor
        · intro h
          injection h with h
          exact RedirectExc.noConfusion h
        · intro h
          exact absurd h hself
      · intro e
        constructor
        · intro h
          injection h with h
          injection h with h1 h2 h3
          refine ⟨hself, ?_⟩
          rw [h3]
        · rintro ⟨_, he⟩
          injection he with he
          rw [he]
      · constructor
        · rintro ⟨c, hc, _⟩
          injection hc with hc
          exact RedirectExc.noConfusion hc
        · rintro ⟨_, hnone, _⟩
          exact Option.noConfusion hnone
      · constructor
        · intro h
          exact Except.noConfusion h
        · rintro ⟨_, hnone, _⟩
          exact Option.noConfusion hnone
    | none =>
      have hrbu : lookupA (RedirectIndex.build enum pad)._records_by_url u = none := by
        unfold existingAt at hex
        cases hl : lookupA (RedirectIndex.build enum pad)._records_by_url u with
        | none => rfl
        | some r => rw [hl] at hex; exact Option.noConfusion hex
      have hlast : lastWithUrl pad.records u = none := by
        rw [build_rbu_def] at hrbu
        rw [← lookupA_buildRaw_rbu]
        exact hrbu
      have hcand : ∀ c,
          c ∈ (lookupA (RedirectIndex.build enum pad)._redirects u).getD [] ↔
            declares pad u c := by
        intro c
        rw [mem_getD_build enum pad henum hpaths]
        constructor
        · exact fun h => h.1
        · intro h
          refine ⟨h, ?_⟩
          intro rstar hrs
          rw [hlast] at hrs
          exact Option.noConfusion hrs
      cases hf : ((lookupA (RedirectIndex.build enum pad)._redirects u).getD
          []).find? (fun c => !(Record.beq c target)) with
      | some c0 =>
        have hc0 := List.find?_some hf
        have hc0mem := List.mem_of_find?_eq_some hf
        have hc0beq : Record.beq c0 target = false := by
          simpa using hc0
        refine ⟨?_, ?_, ?_, ?_⟩
        · constructor
          · intro h
            injection h with h
            exact RedirectExc.noConfusion h
          · intro h
            exact absurd h hself
        · intro e
          constructor
          · intro h
            injection h with h
            exact RedirectExc.noConfusion h
          · rintro ⟨_, he⟩
            exact Option.noConfusion he
        · constructor
          · rintro ⟨c, hc, hdec, hbeq⟩
            exact ⟨hself, rfl, c, hdec, hbeq⟩
          · rintro ⟨_, _, _⟩
            exact ⟨c0, rfl, (hcand c0).mp hc0mem, hc0beq⟩
        · constructor
          · intro h
            exact Except.noConfusion h
          · rintro ⟨_, _, hall⟩
            have := hall c0 ((hcand c0).mp hc0mem)
            rw [this] at hc0beq
            exact Bool.noConfusion hc0beq
      | none =>
        have hall : ∀ c ∈ (lookupA
            (RedirectIndex.build enum pad)._redirects u).getD [],
            Record.beq c target = true := by
          intro c hc
          have := List.find?_eq_none.mp hf c hc
          simpa using this
        refine ⟨?_, ?_, ?_, ?_⟩
        · constructor
          · intro h
            exact Except.noConfusion h
          · intro h
            exact absurd h hself
        · intro e
          constructor
          · intro h
            exact Except.noConfusion h
          · rintro ⟨_, he⟩
            exact Option.noConfusion he
        · constructor
          · rintro ⟨c, hc, _⟩
            exact absurd hc (fun h => Except.noConfusion h)
          · rintro ⟨_, _, c, hdec, hbeq⟩
            have := hall c ((hcand c).mpr hdec)
            rw [this] at hbeq
            exact Bool.noConfusion hbeq
        · exact ⟨fun _ => ⟨hself, rfl, fun c hc => hall c ((hcand c).mpr hc)⟩,
            fun _ => rfl⟩

end LektorRedirect

namespace LektorRedirect

/-- Closed instance exercising `raise_on_conflict_spec`: on the
ambiguous pad, checking `/dup/` for `recB` raises the ambiguity
exception naming the other declarer. -/
theorem raise_on_conflict_spec_witness :
    (padAB.records.map Record.path).Nodup ∧
    Record.url_path recB ≠ "/dup/" ∧
    existingAt (RedirectIndex.build (fun l => l) padAB) padAB "/dup/" = none ∧
    (∃ c, (RedirectIndex.build (fun l => l) padAB).raise_on_conflict padAB
        "/dup/" recB = .error (.ambiguous "/dup/" recB c) ∧
      declares padAB "/dup/" c ∧ Record.beq c recB = false) :=
  ⟨by decide, by decide, by decide,
   ((raise_on_conflict_spec (fun l => l) padAB (fun l => List.Perm.refl l)
       (by decide) "/dup/" recB).2.2.1).mpr
     ⟨by decide, by decide, recA, ⟨by decide, by decide⟩, by decide⟩⟩

end LektorRedirect

namespace LektorRedirect

/-- C7 fails as stated: with warnings enabled (`warn_on_conflict=True`)
but reporter verbosity 0, a self-redirect conflict returns `True` yet
emits no diagnostic at all — the self-redirect report is gated behind
`reporter.verbosity >= 1`. -/
theorem is_conflict_no_warning_at_verbosity_zero :
    (RedirectIndex.build (fun l => l) padAB).raise_on_conflict padAB "/b/" recB =
      .error (.toSelf "/b/" recB) ∧
    (RedirectIndex.build (fun l => l) padAB).is_conflict padAB 0 "/b/" recB true =
      (true, []) := by
  constructor <;> decide

/-- C7 amended: `is_conflict` never propagates a conflict exception —
it returns `True` exactly when `raise_on_conflict` raises and `False`
exactly when it returns normally; with warnings enabled a shadow or
ambiguity conflict emits exactly one diagnostic
`"Invalid redirect: <from> => <target>: <reason>"` whose reason names
the conflicting record, while a self-redirect conflict emits
`"Ignoring redirect: ..."` only when the reporter verbosity is at least
1; no conflict emits nothing. -/
theorem is_conflict_spec (idx : RedirectIndex) (pad : Pad) (verbosity : Nat)
    (u : String) (target : Record) (warn : Bool) :
    ((idx.is_conflict pad verbosity u target warn).1 = true ↔
      ∃ e, idx.raise_on_conflict pad u target = .error e) ∧
    ((idx.is_conflict pad verbosity u target warn).1 = false ↔
      idx.raise_on_conflict pad u target = .ok ()) ∧
    (∀ e, idx.raise_on_conflict pad u target = .error e →
      (idx.is_conflict pad verbosity u target warn).2 =
        (match e with
         | .toSelf _ _ =>
           if warn && decide (1 ≤ verbosity) then
             ["Ignoring redirect: " ++ e.message]
           else []
         | _ => if warn then ["Invalid redirect: " ++ e.message] else [])) ∧
    (idx.raise_on_conflict pad u target = .ok () →
      (idx.is_conflict pad verbosity u target warn).2 = []) ∧
    (∀ u0 : String, ∀ t0 c : Record,
      RedirectExc.message (.shadows u0 t0 c) =
        pyRepr u0 ++ " => " ++ t0.reprs ++ ": " ++
          ("redirect url conflicts with existing record " ++ c.reprs) ∧
      RedirectExc.message (.ambiguous u0 t0 c) =
        pyRepr u0 ++ " => " ++ t0.reprs ++ ": " ++
          ("conflicts with redirect " ++ pyRepr u0 ++ " => " ++ c.reprs)) := by
  unfold RedirectIndex.is_conflict
  cases hr : idx.raise_on_conflict pad u target with
  | ok v =>
    cases v
    refine ⟨?_, ?_, ?_, ?_, ?_⟩
    · constructor
      · intro h
        simp at h
      · rintro ⟨e, he⟩
        exact Except.noConfusion he
    · exact ⟨fun _ => rfl, fun _ => rfl⟩
    · intro e he
      exact Except.noConfusion he
    · intro _
      rfl
    · intro u0 t0 c
      exact ⟨rfl, rfl⟩
  | error e =>
    refine ⟨?_, ?_, ?_, ?_, ?_⟩
    · cases e <;>
        exact ⟨fun _ => ⟨_, rfl⟩, fun _ => rfl⟩
    · cases e <;>
        refine ⟨fun h => ?_, fun h => Except.noConfusion h⟩ <;> simp at h
    · intro e0 he0
      injection he0 with he0
      rw [← he0]
      cases e <;> rfl
    · intro h
      exact Except.noConfusion h
    · intro u0 t0 c
      exact ⟨rfl, rfl⟩

/-- Closed instance exercising `is_conflict_spec` on a concrete shadow
conflict: declaring `/s/` from `recOther` conflicts with nothing here,
so instead use the ambiguous pad: checking `/dup/` for `recB` returns
`True` and emits one naming diagnostic. -/
theorem is_conflict_spec_witness :
    (RedirectIndex.build (fun l => l) padAB).raise_on_conflict padAB
      "/dup/" recB = .error (.ambiguous "/dup/" recB recA) ∧
    ((RedirectIndex.build (fun l => l) padAB).is_conflict padAB 0
      "/dup/" recB true).1 = true ∧
    ((RedirectIndex.build (fun l => l) padAB).is_conflict padAB 0
      "/dup/" recB true).2 =
      ["Invalid redirect: " ++
        RedirectExc.message (.ambiguous "/dup/" recB recA)] :=
  ⟨by decide,
   ((is_conflict_spec (RedirectIndex.build (fun l => l) padAB) padAB 0
       "/dup/" recB true).1).mpr ⟨.ambiguous "/dup/" recB recA, by decide⟩,
   by
    have h := (is_conflict_spec (RedirectIndex.build (fun l => l) padAB) padAB 0
      "/dup/" recB true).2.2.1 (.ambiguous "/dup/" recB recA) (by decide)
    rw [h]
    rfl⟩

end LektorRedirect

namespace LektorRedirect

/-- Identity and visibility data of a content-tree node. -/
structure RecData where
  path : String
  discoverable : Bool
deriving DecidableEq, Repr

/-- The content tree as the walker sees it: pages have child pages and
attachments, attachments are leaves. -/
inductive SNode where
  | page (data : RecData) (subpages : List SNode) (attachments : List SNode)
  | attachment (data : RecData)

/-- The node data, whatever the node kind. -/
def SNode.data : SNode → RecData
  | .page d _ _ => d
  | .attachment d => d

/-- The query issued by the walker:
`record.children.include_undiscoverable(iu)` with
`query._include_attachments` set to `ia` — children (plus attachments
when included) filtered by discoverability unless `iu`; non-page records
have no children. -/
def SNode.query (iu ia : Bool) : SNode → List SNode
  | .page _ subpages attachments =>
    (subpages ++ (if ia then attachments else [])).filter
      (fun c => iu || c.data.discoverable)
  | .attachment _ => []

mutual

/-- Node count of a subtree, the walker's termination measure. -/
def SNode.size : SNode → Nat
  | .page _ subpages attachments => 1 + sizeList subpages + sizeList attachments
  | .attachment _ => 1

/-- Total node count of a forest. -/
def sizeList : List SNode → Nat
  | [] => 0
  | n :: ns => SNode.size n + sizeList ns

end

theorem sizeList_eq_sum (l : List SNode) : sizeList l = (l.map SNode.size).sum := by
  induction l with
  | nil => rfl
  | cons n ns ih => simp [sizeList, ih]

theorem SNode.size_pos (n : SNode) : 0 < n.size := by
  cases n with
  | page d subpages attachments => simp [SNode.size]
  | attachment d => simp [SNode.size]

theorem query_size_lt (r : SNode) (iu ia : Bool) :
    ((r.query iu ia).map SNode.size).sum < r.size := by
  cases r with
  | attachment d => simp [SNode.query, SNode.size]
  | page d subpages attachments =>
    have h1 : ((((subpages ++ (if ia then attachments else [])).filter
        (fun c => iu || c.data.discoverable)).map SNode.size)).sum ≤
        (((subpages ++ (if ia then attachments else [])).map SNode.size)).sum := by
      apply List.Sublist.sum_le_sum
      · exact List.Sublist.map SNode.size (List.filter_sublist _)
      · intro x hx
        positivity
    have h2 : (((subpages ++ (if ia then attachments else [])).map SNode.size)).sum ≤
        ((subpages ++ attachments).map SNode.size).sum := by
      by_cases hia : ia = true
      · rw [hia]
        simp
      · rw [if_neg hia]
        simp only [List.map_append, List.sum_append, List.append_nil,
          List.map_nil, List.sum_nil]
        have : 0 ≤ (attachments.map SNode.size).sum := by positivity
        omega
    have h3 : ((subpages ++ attachments).map SNode.size).sum <
        SNode.size (.page d subpages attachments) := by
      show _ < 1 + sizeList subpages + sizeList attachments
      rw [sizeList_eq_sum, sizeList_eq_sum]
      simp only [List.map_append, List.sum_append]
      omega
    calc (((SNode.page d subpages attachments).query iu ia).map SNode.size).sum
        ≤ (((subpages ++ (if ia then attachments else [])).map SNode.size)).sum := h1
      _ ≤ ((subpages ++ attachments).map SNode.size).sum := h2
      _ < SNode.size (.page d subpages attachments) := h3

theorem walk_measure_lt (r : SNode) (rest : List SNode) :
    ((rest ++ r.query true true).map SNode.size).sum <
      ((r :: rest).map SNode.size).sum := by
  simp only [List.map_append, List.sum_append, List.map_cons, List.sum_cons]
  have := query_size_lt r true true
  omega

/-- Breadth-first traversal with a deque, as in `walk_records`: pop the
head, yield it, and enqueue the results of its query (undiscoverable
records and attachments included). -/
def walkQueue : List SNode → List SNode
  | [] => []
  | r :: rest => r :: walkQueue (rest ++ r.query true true)
termination_by l => (l.map SNode.size).sum
decreasing_by
  exact walk_measure_lt _ _

theorem walkQueue_cons (r : SNode) (rest : List SNode) :
    walkQueue (r :: rest) = r :: walkQueue (rest ++ r.query true true) := by
  conv_lhs => rw [walkQueue.eq_def]

/-- Reachability from a node through the full (undiscoverable-inclusive,
attachment-inclusive) child query. -/
inductive Reach : SNode → SNode → Prop where
  | refl (n : SNode) : Reach n n
  | step {a b c : SNode} : b ∈ a.query true true → Reach b c → Reach a c

theorem mem_walkQueue : ∀ (queue : List SNode), ∀ n ∈ queue, n ∈ walkQueue queue
  | [] => by intro n hn; simp at hn
  | r :: rest => by
    intro n hn
    rw [walkQueue_cons]
    rcases List.mem_cons.mp hn with h | h
    · exact h ▸ List.mem_cons_self n _
    · exact List.mem_cons_of_mem r
        (mem_walkQueue (rest ++ r.query true true) n (List.mem_append_left _ h))
termination_by queue => (queue.map SNode.size).sum
decreasing_by
  exact walk_measure_lt _ _

theorem mem_walkQueue_of_query (m a b : SNode) (hb : b ∈ a.query true true)
    (H : ∀ queue, b ∈ queue → m ∈ walkQueue queue) :
    ∀ queue, a ∈ queue → m ∈ walkQueue queue
  | [] => by intro ha; simp at ha
  | r :: rest => by
    intro ha
    rw [walkQueue_cons]
    rcases List.mem_cons.mp ha with h | h
    · subst h
      exact List.mem_cons_of_mem a
        (H (rest ++ a.query true true) (List.mem_append_right _ hb))
    · exact List.mem_cons_of_mem r
        (mem_walkQueue_of_query m a b hb H (rest ++ r.query true true)
          (List.mem_append_left _ h))
termination_by queue => (queue.map SNode.size).sum
decreasing_by
  exact walk_measure_lt _ _

theorem walkQueue_complete (n m : SNode) (h : Reach n m) :
    ∀ queue, n ∈ queue → m ∈ walkQueue queue := by
  induction h with
  | refl n => exact fun queue hq => mem_walkQueue queue n hq
  | step hb hr ih => exact fun queue hq =>
      mem_walkQueue_of_query _ _ _ hb ih queue hq

/-- The pad as the walker sees it: just the root record. -/
structure TreePad where
  root : SNode

/-- `util.walk_records` (the version the current `RedirectIndex` uses):
the body runs under `lektorlib.context.disable_dependency_recording()`,
which suppresses dependency tracking but has no effect on the traversal,
and the function never consults the active build context — it performs
the walk whether or not one is active. -/
def Util.walk_records (ctx : Option Unit) (pad : TreePad) :
    Except String (List SNode) :=
  .ok (walkQueue [pad.root])

/-- The legacy `walk_records` from the package `__init__`:
`assert get_ctx() is None` fails fast when a build context is active,
then performs the same traversal. -/
def Init.walk_records (ctx : Option Unit) (pad : TreePad) :
    Except String (List SNode) :=
  if ctx.isSome then .error "AssertionError: get_ctx() is None"
  else .ok (walkQueue [pad.root])

end LektorRedirect

namespace LektorRedirect

/-- Attachment of the sample tree. -/
def sampleAttachment : SNode := .attachment ⟨"/about/pic.jpg", true⟩

/-- An undiscoverable page of the sample tree. -/
def sampleHidden : SNode := .page ⟨"/hidden", false⟩ [] []

/-- Page of the sample tree carrying the attachment. -/
def sampleAbout : SNode := .page ⟨"/about", true⟩ [] [sampleAttachment]

/-- Root of the sample tree. -/
def sampleTree : SNode := .page ⟨"/", true⟩ [sampleHidden, sampleAbout] []

/-- The sample pad. -/
def samplePad : TreePad := ⟨sampleTree⟩

/-- C6 fails as stated for the walker the index actually uses: the
refactored `util.walk_records` contains no assertion — invoked with a
build context active it simply performs the walk (it suppresses
dependency recording instead); only the legacy `walk_records` in the
package `__init__` fails fast on `assert get_ctx() is None`. -/
theorem util_walk_records_no_fail_fast :
    Util.walk_records (some ()) samplePad = .ok (walkQueue [sampleTree]) ∧
    Init.walk_records (some ()) samplePad =
      .error "AssertionError: get_ctx() is None" :=
  ⟨rfl, rfl⟩

/-- C6 amended: the legacy `walk_records` asserts that no build context
is active and fails fast otherwise, while the current `util.walk_records`
performs the walk regardless of any active context (it disables
dependency recording instead of asserting); in either successful case
the walk queries children with undiscoverability included and
attachments included (no filtering at all), and visits every node
reachable from the root. -/
theorem walk_records_spec (pad : TreePad) (ctx : Option Unit) :
    (ctx.isSome = true →
      Init.walk_records ctx pad = .error "AssertionError: get_ctx() is None") ∧
    (ctx = none → Init.walk_records ctx pad = .ok (walkQueue [pad.root])) ∧
    Util.walk_records ctx pad = .ok (walkQueue [pad.root]) ∧
    (∀ d subpages attachments,
      SNode.query true true (.page d subpages attachments) =
        subpages ++ attachments) ∧
    (∀ m, Reach pad.root m → m ∈ walkQueue [pad.root]) := by
  refine ⟨?_, ?_, rfl, ?_, ?_⟩
  · intro h
    unfold Init.walk_records
    rw [if_pos h]
  · intro h
    unfold Init.walk_records
    rw [h]
    rfl
  · intro d subpages attachments
    show (subpages ++ (if true then attachments else [])).filter
      (fun c => true || c.data.discoverable) = _
    simp
  · intro m hm
    exact walkQueue_complete pad.root m hm [pad.root] (List.mem_cons_self _ _)

theorem sample_reach : Reach sampleTree sampleAttachment := by
  have h1 : sampleAbout ∈ sampleTree.query true true := by
    rw [show sampleTree.query true true = [sampleHidden, sampleAbout] from rfl]
    exact List.mem_cons_of_mem _ (List.mem_cons_self _ _)
  have h2 : sampleAttachment ∈ sampleAbout.query true true := by
    rw [show sampleAbout.query true true = [sampleAttachment] from rfl]
    exact List.mem_cons_self _ _
  exact Reach.step h1 (Reach.step h2 (Reach.refl _))

/-- Closed instance exercising `walk_records_spec` on the sample pad:
the legacy walker fails under an active context and succeeds without
one, and the walk visits the nested attachment. -/
theorem walk_records_spec_witness :
    (some () : Option Unit).isSome = true ∧
    Init.walk_records (some ()) samplePad =
      .error "AssertionError: get_ctx() is None" ∧
    Init.walk_records none samplePad = .ok (walkQueue [sampleTree]) ∧
    Reach sampleTree sampleAttachment ∧
    sampleAttachment ∈ walkQueue [sampleTree] :=
  ⟨rfl,
   (walk_records_spec samplePad (some ())).1 rfl,
   (walk_records_spec samplePad none).2.1 rfl,
   sample_reach,
   (walk_records_spec samplePad none).2.2.2.2 sampleAttachment sample_reach⟩

end LektorRedirect

namespace LektorRedirect

theorem lexLt_trans (a b c : List Char) (hab : lexLt a b = true)
    (hbc : lexLt b c = true) : lexLt a c = true := by
  induction a generalizing b c with
  | nil =>
    cases c with
    | nil =>
      cases b with
      | nil => exact hab
      | cons y ys => exact absurd hbc (by simp [lexLt])
    | cons z zs => rfl
  | cons x xs ih =>
    cases b with
    | nil => exact absurd hab (by simp [lexLt])
    | cons y ys =>
      cases c with
      | nil => exact absurd hbc (by simp [lexLt])
      | cons z zs =>
        unfold lexLt at hab hbc ⊢
        by_cases hxy : x < y
        · by_cases hyz : y < z
          · rw [if_pos (lt_trans hxy hyz)]
          · rw [if_neg hyz] at hbc
            by_cases hzy : z < y
            · rw [if_pos hzy] at hbc
              exact absurd hbc (by simp)
            · have hyez : y = z := le_antisymm (not_lt.mp hzy) (not_lt.mp hyz)
              rw [if_pos (hyez ▸ hxy)]
        · rw [if_neg hxy] at hab
          by_cases hyx : y < x
          · rw [if_pos hyx] at hab
            exact absurd hab (by simp)
          · have hxey : x = y := le_antisymm (not_lt.mp hyx) (not_lt.mp hxy)
            rw [if_neg hyx] at hab
            by_cases hyz : y < z
            · rw [if_pos (hxey ▸ hyz)]
            · rw [if_neg hyz] at hbc
              by_cases hzy : z < y
              · rw [if_pos hzy] at hbc
                exact absurd hbc (by simp)
              · rw [if_neg hzy] at hbc
                rw [if_neg (hxey ▸ hyz), if_neg (hxey ▸ hzy)]
                exact ih ys zs hab hbc

theorem lexLt_trichotomy (a b : List Char) :
    lexLt a b = true ∨ lexLt b a = true ∨ a = b := by
  induction a generalizing b with
  | nil =>
    cases b with
    | nil => exact Or.inr (Or.inr rfl)
    | cons y ys => exact Or.inl rfl
  | cons x xs ih =>
    cases b with
    | nil => exact Or.inr (Or.inl rfl)
    | cons y ys =>
      unfold lexLt
      by_cases hxy : x < y
      · exact Or.inl (by rw [if_pos hxy])
      · by_cases hyx : y < x
        · refine Or.inr (Or.inl ?_)
          rw [if_pos hyx]
        · have hxey : x = y := le_antisymm (not_lt.mp hyx) (not_lt.mp hxy)
          rcases ih ys with h | h | h
          · exact Or.inl (by rw [if_neg hxy, if_neg hyx]; exact h)
          · refine Or.inr (Or.inl ?_)
            rw [if_neg (hxey ▸ hyx), if_neg (hxey ▸ hxy)]
            exact h
          · exact Or.inr (Or.inr (by rw [hxey, h]))

theorem strLeB_trans (a b c : String) (hab : strLeB a b = true)
    (hbc : strLeB b c = true) : strLeB a c = true := by
  unfold strLeB at *
  rcases Bool.or_eq_true_iff.mp hab with h1 | h1
  · have : a = b := by simpa using h1
    subst this
    exact hbc
  · rcases Bool.or_eq_true_iff.mp hbc with h2 | h2
    · have hbe : b = c := by simpa using h2
      subst hbe
      simp [h1]
    · apply Bool.or_eq_true_iff.mpr
      exact Or.inr (lexLt_trans a.data b.data c.data h1 h2)

theorem strLeB_total (a b : String) : (strLeB a b || strLeB b a) = true := by
  unfold strLeB
  rcases lexLt_trichotomy a.data b.data with h | h | h
  · simp [h]
  · simp [h]
  · have hae : a = b := by
      cases a
      cases b
      exact congrArg String.mk h
    subst hae
    simp

/-- Strict order on the sorted key sequence: nonstrictly ordered and
pairwise distinct. -/
def strLtP (a b : String) : Prop := strLeB a b = true ∧ a ≠ b

theorem sortStrings_pairwise (l : List String) (hnd : l.Nodup) :
    (sortStrings l).Pairwise strLtP ∧ (sortStrings l).Perm l := by
  have hperm : (sortStrings l).Perm l := List.mergeSort_perm l strLeB
  refine ⟨?_, hperm⟩
  have hsorted : (sortStrings l).Pairwise (fun a b => strLeB a b = true) :=
    @List.sorted_mergeSort String strLeB
      (fun a b c => strLeB_trans a b c) (fun a b => strLeB_total a b) l
  have hnd2 : (sortStrings l).Nodup := hperm.nodup_iff.mpr hnd
  exact List.Pairwise.and hsorted hnd2

end LektorRedirect

namespace LektorRedirect

/-- The url resolution applied to each emitted entry:
`urljoin(base_path, url_path.lstrip("/"))`. -/
def abs_url (base_path : String) (url_path : String) : String :=
  urljoin base_path (lstripSlash url_path)

/-- The key sequence `sorted(index)` that `iter_redirect_map` iterates. -/
def sortedKeys (enum : List Record → List Record) (pad : Pad) : List String :=
  sortStrings (RedirectIndex.build enum pad).keys

/-- The entry `iter_redirect_map` emits for one key, if any. -/
def keptEntry (enum : List Record → List Record) (pad : Pad) (verbosity : Nat)
    (u : String) : Option (String × String) :=
  match (RedirectIndex.build enum pad).getitem u with
  | .error _ => none
  | .ok target =>
    if ((RedirectIndex.build enum pad).is_conflict pad verbosity u target true).1
    then none
    else some (abs_url pad.basePath u, abs_url pad.basePath target.url_path)

/-- The diagnostics `iter_redirect_map` emits while handling one key. -/
def msgsAt (enum : List Record → List Record) (pad : Pad) (verbosity : Nat)
    (u : String) : List String :=
  match (RedirectIndex.build enum pad).getitem u with
  | .error _ => []
  | .ok target =>
    ((RedirectIndex.build enum pad).is_conflict pad verbosity u target true).2

theorem iter_redirect_map_foldl (enum : List Record → List Record) (pad : Pad)
    (verbosity : Nat) (keys : List String)
    (acc : List (String × String) × List String) :
    keys.foldl
      (fun acc redirect_url =>
        match (RedirectIndex.build enum pad).getitem redirect_url with
        | .error _ => acc
        | .ok target =>
          let c := (RedirectIndex.build enum pad).is_conflict pad verbosity
            redirect_url target true
          (if c.1 then acc.1
           else acc.1 ++ [(urljoin pad.basePath (lstripSlash redirect_url),
             urljoin pad.basePath (lstripSlash target.url_path))],
           acc.2 ++ c.2)) acc =
      (acc.1 ++ keys.filterMap (keptEntry enum pad verbosity),
       acc.2 ++ keys.flatMap (msgsAt enum pad verbosity)) := by
  induction keys generalizing acc with
  | nil => simp
  | cons k ks ih =>
    rw [List.foldl_cons, ih]
    rw [List.filterMap_cons, List.flatMap_cons]
    unfold keptEntry msgsAt
    cases hg : (RedirectIndex.build enum pad).getitem k with
    | error e => simp
    | ok target =>
      by_cases hc : ((RedirectIndex.build enum pad).is_conflict pad verbosity
          k target true).1 = true
      · simp only [hc, if_true, if_pos hc]
        simp [abs_url]
      · simp only [Bool.not_eq_true] at hc
        simp only [hc, if_neg (by simp [hc] : ¬ (((RedirectIndex.build enum
          pad).is_conflict pad verbosity k target true).1 = true))]
        simp [abs_url]

theorem iter_redirect_map_eq (enum : List Record → List Record)
    (st : PluginState) (pad : Pad) (verbosity : Nat) :
    iter_redirect_map enum st pad verbosity =
      ((sortedKeys enum pad).filterMap (keptEntry enum pad verbosity),
       (sortedKeys enum pad).flatMap (msgsAt enum pad verbosity)) := by
  unfold iter_redirect_map
  rw [iter_redirect_map_foldl]
  simp [sortedKeys]

end LektorRedirect

namespace LektorRedirect

theorem interL_splitL (l : List Char) : interL (splitL l) = l := by
  induction l with
  | nil => rfl
  | cons x xs ih =>
    obtain ⟨h, t, hs⟩ := List.exists_cons_of_ne_nil (splitL_ne_nil xs)
    by_cases hx : x = '/'
    · subst hx
      rw [splitL_slash, hs]
      have h1 : interL ([] :: h :: t) = [] ++ '/' :: interL (h :: t) := rfl
      rw [h1, ← hs, ih]
      rfl
    · rw [splitL_cons_of_ne x xs hx, hs]
      rw [hs] at ih
      cases t with
      | nil =>
        have ih2 : h = xs := ih
        show x :: h = x :: xs
        rw [ih2]
      | cons t0 ts =>
        show interL ((x :: (h :: t0 :: ts).headD []) :: (h :: t0 :: ts).tail) = x :: xs
        have h2 : (h :: t0 :: ts).headD [] = h := rfl
        have h3 : (h :: t0 :: ts).tail = t0 :: ts := rfl
        rw [h2, h3]
        have h4 : interL ((x :: h) :: t0 :: ts) =
            (x :: h) ++ '/' :: interL (t0 :: ts) := rfl
        rw [h4]
        have h5 : interL (h :: t0 :: ts) = h ++ '/' :: interL (t0 :: ts) := rfl
        rw [h5] at ih
        show x :: (h ++ '/' :: interL (t0 :: ts)) = x :: xs
        rw [ih]

theorem interL_append (A B : List (List Char)) (hA : A ≠ []) (hB : B ≠ []) :
    interL (A ++ B) = interL A ++ '/' :: interL B := by
  induction A with
  | nil => exact absurd rfl hA
  | cons a as ih =>
    obtain ⟨b, bs, hb⟩ := List.exists_cons_of_ne_nil hB
    cases as with
    | nil =>
      subst hb
      rfl
    | cons a2 as2 =>
      have h1 : interL (a :: (a2 :: as2) ++ B) =
          a ++ '/' :: interL ((a2 :: as2) ++ B) := by
        subst hb
        rfl
      show interL (a :: (a2 :: as2) ++ B) = _
      rw [h1, ih (by simp)]
      have h2 : interL (a :: a2 :: as2) = a ++ '/' :: interL (a2 :: as2) := rfl
      rw [h2]
      simp

theorem ujStep_foldl_no_dots (segs : List (List Char))
    (h : ∀ s ∈ segs, s ≠ ['.'] ∧ s ≠ ['.', '.']) (acc : List (List Char)) :
    segs.foldl ujStep acc = acc ++ segs := by
  induction segs generalizing acc with
  | nil => simp
  | cons s ss ih =>
    have hs := h s (List.mem_cons_self s ss)
    show List.foldl ujStep (ujStep acc s) ss = _
    rw [ih (fun x hx => h x (List.mem_cons_of_mem s hx))]
    unfold ujStep
    rw [if_neg hs.2, if_neg hs.1]
    simp

theorem getLastD_append {α : Type} (A B : List α) (hB : B ≠ []) (d : α) :
    (A ++ B).getLastD d = B.getLastD d := by
  rw [List.getLastD_eq_getLast?, List.getLastD_eq_getLast?,
    List.getLast?_append_of_ne_nil _ hB]

theorem getLastD_mem {α : Type} (l : List α) (d : α) (h : l ≠ []) :
    l.getLastD d ∈ l := by
  rw [List.getLastD_eq_getLast?]
  cases hl : l.getLast? with
  | none => exact absurd (List.getLast?_eq_none_iff.mp hl) h
  | some a =>
    obtain ⟨ys, hy⟩ := List.getLast?_eq_some_iff.mp hl
    subst hy
    simp

theorem filterMiddleL_cons_of_ne (h : List Char) (t : List (List Char))
    (ht : t ≠ []) :
    filterMiddleL (h :: t) =
      h :: ((t.dropLast.filter (fun s => s ≠ [])) ++ [t.getLastD []]) := by
  obtain ⟨a, r, hr⟩ := List.exists_cons_of_ne_nil ht
  subst hr
  rfl

theorem interL_cons_of_ne (f : List Char) (rest : List (List Char))
    (h : rest ≠ []) : interL (f :: rest) = f ++ '/' :: interL rest := by
  obtain ⟨a, r, hr⟩ := List.exists_cons_of_ne_nil h
  subst hr
  rfl

theorem findIdx_char_not_mem (l : List Char) (c : Char) (h : c ∉ l) :
    ¬(l.findIdx (· == c) < l.length) := by
  induction l with
  | nil => simp
  | cons x xs ih =>
    rw [List.findIdx_cons]
    have hx : (x == c) = false := by
      simp only [beq_eq_false_iff_ne]
      intro hxc
      exact h (hxc ▸ List.mem_cons_self _ _)
    simp only [hx, cond_false, List.length_cons]
    intro hlt
    exact ih (fun hm => h (List.mem_cons_of_mem _ hm)) (by omega)

theorem splitNetloc_of_ne (l : List Char) (h : l.take 2 ≠ ['/', '/']) :
    splitNetloc l = ([], l) := by
  unfold splitNetloc
  rw [if_neg h]

theorem splitOnFirst_not_mem (c : Char) (l : List Char) (h : c ∉ l) :
    splitOnFirst c l = (l, []) := by
  unfold splitOnFirst
  rw [if_neg (findIdx_char_not_mem l c h)]

theorem ne_empty_data (s : String) (h : s ≠ "") : s.data ≠ [] := by
  intro hd
  apply h
  cases s with
  | mk d =>
    have hd2 : d = [] := hd
    rw [hd2]

theorem take_two_ne_slashes (l : List Char) (h : startsSlash l = false) :
    l.take 2 ≠ ['/', '/'] := by
  cases l with
  | nil => simp
  | cons x xs =>
    have hx : x ≠ '/' := by
      intro hx
      subst hx
      have h2 : startsSlash ('/' :: xs) = true := rfl
      exact Bool.noConfusion (h2.symm.trans h)
    cases xs <;> simp [hx]

theorem take_one_ne_slash (l : List Char) (h : startsSlash l = false) :
    l.take 1 ≠ ['/'] := by
  cases l with
  | nil => simp
  | cons x xs =>
    have hx : x ≠ '/' := by
      intro hx
      subst hx
      have h2 : startsSlash ('/' :: xs) = true := rfl
      exact Bool.noConfusion (h2.symm.trans h)
    simp [hx]

theorem urlsplitL_clean (l dscheme : List Char)
    (hsch : splitScheme l = none) (hnl : l.take 2 ≠ ['/', '/'])
    (hq : '?' ∉ l) (hf : '#' ∉ l) :
    urlsplitL l dscheme = ⟨dscheme, [], l, [], []⟩ := by
  simp only [urlsplitL, hsch, splitNetloc_of_ne l hnl,
    splitOnFirst_not_mem '#' l hf, splitOnFirst_not_mem '?' l hq]

theorem urlparseL_clean (l dscheme : List Char)
    (hsch : splitScheme l = none) (hnl : l.take 2 ≠ ['/', '/'])
    (hsemi : ';' ∉ l) (hq : '?' ∉ l) (hf : '#' ∉ l) :
    urlparseL l dscheme = ⟨dscheme, [], l, [], [], []⟩ := by
  simp only [urlparseL, urlsplitL_clean l dscheme hsch hnl hq hf]
  rw [if_neg (fun hc => hsemi hc.2)]

/-- The references this plugin's map generation resolves against the
base path without CPython's `urljoin` escaping into scheme, params,
query or fragment handling: no scheme-like prefix before a colon and no
`;`, `?` or `#` anywhere. -/
def cleanRef (s : String) : Prop :=
  splitScheme s.data = none ∧ ';' ∉ s.data ∧ '?' ∉ s.data ∧ '#' ∉ s.data

instance (s : String) : Decidable (cleanRef s) := by
  unfold cleanRef
  exact inferInstance

/-- The shape of the base urls this plugin joins against (site base
paths such as `"/prefix/"`): an absolute path free of `?`, `#` and `;`,
ending in a slash, whose interior segments are nonempty and are not the
dot segments `.`/`..`.  This is what `urljoin` needs for the result to
extend the base: it excludes bases that CPython would parse as carrying
a netloc (`"//x"`), a query, fragment or params, or would rewrite while
resolving dot segments. -/
def goodBase (base : String) : Prop :=
  startsSlash base.data = true ∧
  base.data.getLast? = some '/' ∧
  '?' ∉ base.data ∧ '#' ∉ base.data ∧ ';' ∉ base.data ∧
  ∀ c ∈ ((splitL base.data).dropLast).tail, c ≠ [] ∧ c ≠ ['.'] ∧ c ≠ ['.', '.']

instance (base : String) : Decidable (goodBase base) := by
  unfold goodBase
  exact inferInstance

theorem goodBase_decomp (base : String) (hb : goodBase base) :
    ∃ mids : List (List Char),
      splitL base.data = [] :: mids ++ [[]] ∧
      ∀ c ∈ mids, c ≠ [] ∧ c ≠ ['.'] ∧ c ≠ ['.', '.'] := by
  obtain ⟨t, ht⟩ := (startsSlash_iff base.data).mp hb.1
  obtain ⟨y, hy⟩ := List.getLast?_eq_some_iff.mp hb.2.1
  have h1 : splitL base.data = [] :: splitL t := by rw [ht, splitL_slash]
  have h2 : splitL base.data = splitL y ++ [[]] := by rw [hy, splitL_append_slash]
  have h3 : (splitL t).getLast? = some [] := by
    have h4 : ([] :: splitL t).getLast? = ((splitL y) ++ [[]]).getLast? := by
      rw [← h1, ← h2]
    rw [List.getLast?_append_of_ne_nil _ (by simp : ([([] : List Char)] : List (List Char)) ≠ [])] at h4
    have h5 : ([[]] ++ splitL t).getLast? = (splitL t).getLast? :=
      List.getLast?_append_of_ne_nil _ (splitL_ne_nil t)
    simp only [List.singleton_append] at h5
    rw [h5] at h4
    simpa using h4
  obtain ⟨mids, hmids⟩ := List.getLast?_eq_some_iff.mp h3
  refine ⟨mids, ?_, ?_⟩
  · rw [h1, hmids]
    simp
  · have h6 : ((splitL base.data).dropLast).tail = mids := by
      rw [h1, hmids]
      have h7 : ([] :: (mids ++ [([] : List Char)])) = (([] :: mids) ++ [[]]) := by
        simp
      rw [h7, List.dropLast_append_of_ne_nil ([] :: mids) (by simp)]
      simp
    intro c hc
    exact hb.2.2.2.2.2 c (by rw [h6]; exact hc)

theorem urlparseL_goodBase (base : String) (hb : goodBase base) :
    urlparseL base.data [] = ⟨[], [], base.data, [], [], []⟩ := by
  obtain ⟨t, ht⟩ := (startsSlash_iff base.data).mp hb.1
  obtain ⟨mids, hsplit, hmids⟩ := goodBase_decomp base hb
  apply urlparseL_clean
  · unfold splitScheme
    rw [if_neg]
    intro hc
    have ha : (base.data.headD ' ').isAlpha = true := hc.2.2.1
    rw [ht] at ha
    have ha2 : Char.isAlpha '/' = true := ha
    exact absurd ha2 (by decide)
  · intro h2
    have hdd : ∃ rest, base.data = '/' :: '/' :: rest := by
      cases hd : base.data with
      | nil => rw [hd] at h2; simp at h2
      | cons x xs =>
        cases xs with
        | nil => rw [hd] at h2; simp at h2
        | cons y ys =>
          rw [hd] at h2
          simp at h2
          exact ⟨ys, by rw [h2.1, h2.2]⟩
    obtain ⟨rest, hrest⟩ := hdd
    rw [hrest, splitL_slash, splitL_slash] at hsplit
    cases mids with
    | nil =>
      have h8 : splitL rest = [] := by
        have h9 : ([] : List Char) :: [] :: splitL rest = [[], []] := hsplit
        simpa using h9
      exact splitL_ne_nil rest h8
    | cons m0 ms =>
      have h9 : ([] : List Char) :: [] :: splitL rest =
          [] :: m0 :: (ms ++ [[]]) := hsplit
      have h12 := (List.cons.injEq _ _ _ _).mp h9
      have h13 := (List.cons.injEq _ _ _ _).mp h12.2
      exact (hmids m0 (List.mem_cons_self _ _)).1 h13.1.symm
  · exact hb.2.2.2.2.1
  · exact hb.2.2.1
  · exact hb.2.2.2.1

theorem urlunparseL_plain (p : List Char) :
    urlunparseL [] [] p [] [] [] = p := by
  unfold urlunparseL urlunsplitL
  simp

/-- The `urljoin` outputs this plugin computes extend the base path:
joining a clean relative reference (no leading slash, no scheme-like
colon prefix, no `;`/`?`/`#`, no dot segments — as `lstrip("/")` of a
normalized url produces) onto a well-formed base path yields a url that
starts with the base path itself. -/
theorem urljoin_prefix (base rel : String) (hb : goodBase base)
    (hrel : startsSlash rel.data = false) (hcl : cleanRef rel)
    (hdots : ∀ c ∈ splitL rel.data, c ≠ ['.'] ∧ c ≠ ['.', '.']) :
    ∃ tl, (urljoin base rel).data = base.data ++ tl := by
  obtain ⟨mids, hsplit, hmids⟩ := goodBase_decomp base hb
  obtain ⟨t0, ht0⟩ := (startsSlash_iff base.data).mp hb.1
  have hbdne : base.data ≠ [] := by rw [ht0]; simp
  have hbne : base ≠ "" := by
    intro h
    exact hbdne (by rw [h])
  have hbase : interL (([] : List Char) :: mids ++ [[]]) = base.data := by
    rw [← hsplit, interL_splitL]
  have hP : base.data = interL (([] : List Char) :: mids) ++ ['/'] := by
    rw [← hbase]
    rw [show ((([] : List Char) :: mids ++ [[]]) : List (List Char)) =
      (([] : List Char) :: mids) ++ [[]] from rfl]
    rw [interL_append (([] : List Char) :: mids) [[]] (by simp) (by simp)]
    rfl
  by_cases hre : rel = ""
  · subst hre
    refine ⟨[], ?_⟩
    rw [List.append_nil]
    show (urljoin base "").data = base.data
    unfold urljoin
    rw [if_neg hbne, if_pos rfl]
  · have hrdne : rel.data ≠ [] := ne_empty_data rel hre
    have hbp := urlparseL_goodBase base hb
    have hrp := urlparseL_clean rel.data [] hcl.1
      (take_two_ne_slashes rel.data hrel) hcl.2.1 hcl.2.2.1 hcl.2.2.2
    have husne : splitL rel.data ≠ [] := splitL_ne_nil rel.data
    set X := (splitL rel.data).dropLast.filter (fun s => s ≠ []) ++
      [(splitL rel.data).getLastD []] with hXdef
    have hXne : X ≠ [] := by rw [hXdef]; simp
    have hXelem : ∀ s ∈ X, s ∈ splitL rel.data := by
      intro s hs
      rw [hXdef] at hs
      rcases List.mem_append.mp hs with h | h
      · exact (List.dropLast_sublist (splitL rel.data)).subset
          (List.mem_of_mem_filter h)
      · have hg : s = (splitL rel.data).getLastD [] := by simpa using h
        rw [hg]
        exact getLastD_mem _ _ husne
    have hmidsfilter : mids.filter (fun s => s ≠ []) = mids :=
      List.filter_eq_self.mpr (fun a ha => by simpa using (hmids a ha).1)
    have hseg : filterMiddleL (((([] : List Char) :: mids) ++ [[]]) ++
        splitL rel.data) = [] :: (mids ++ X) := by
      have h1 : ((([] : List Char) :: mids) ++ [[]]) ++ splitL rel.data =
          [] :: ((mids ++ [[]]) ++ splitL rel.data) := by simp
      rw [h1, filterMiddleL_cons_of_ne _ _ (by simp),
        List.dropLast_append_of_ne_nil (mids ++ [[]]) husne,
        List.filter_append, List.filter_append, hmidsfilter,
        getLastD_append (mids ++ [[]]) _ husne]
      have h2 : ([[]] : List (List Char)).filter (fun s => s ≠ []) = [] := rfl
      rw [h2, List.append_nil, List.append_assoc, hXdef]
    have hsegelem : ∀ s ∈ (([] : List Char) :: (mids ++ X)),
        s ≠ ['.'] ∧ s ≠ ['.', '.'] := by
      intro s hs
      rcases List.mem_cons.mp hs with h | h
      · subst h; exact ⟨by simp, by simp⟩
      · rcases List.mem_append.mp h with h2 | h2
        · exact ⟨(hmids s h2).2.1, (hmids s h2).2.2⟩
        · exact hdots s (hXelem s h2)
    have hfold : List.foldl ujStep [] (([] : List Char) :: (mids ++ X)) =
        [] :: (mids ++ X) := by
      rw [ujStep_foldl_no_dots _ hsegelem]
      rfl
    have hlastseg : ((([] : List Char) :: (mids ++ X))).getLastD [] =
        (splitL rel.data).getLastD [] := by
      have h1 : (([] : List Char) :: (mids ++ X)) =
          ([] :: (mids ++
            (splitL rel.data).dropLast.filter (fun s => s ≠ []))) ++
            [(splitL rel.data).getLastD []] := by
        rw [hXdef]; simp
      rw [h1, getLastD_append _ _ (by simp)]
      rfl
    have hlastne : ¬(((([] : List Char) :: (mids ++ X))).getLastD [] = ['.'] ∨
        ((([] : List Char) :: (mids ++ X))).getLastD [] = ['.', '.']) := by
      rw [hlastseg]
      have h2 := hdots _ (getLastD_mem _ [] husne)
      exact not_or.mpr ⟨h2.1, h2.2⟩
    have hpathdata : interL (([] : List Char) :: (mids ++ X)) =
        base.data ++ interL X := by
      rw [show ((([] : List Char) :: (mids ++ X)) : List (List Char)) =
        (([] : List Char) :: mids) ++ X from rfl]
      rw [interL_append (([] : List Char) :: mids) X (by simp) hXne, hP]
      simp
    have hpne : ¬(interL (([] : List Char) :: (mids ++ X)) = []) := by
      intro h
      rw [hpathdata] at h
      exact hbdne (List.append_eq_nil.mp h).1
    have hgl : ¬(((([] : List Char) :: mids ++ [[]])).getLastD [] ≠ []) := by
      rw [getLastD_append (([] : List Char) :: mids) [[]] (by simp) []]
      simp
    refine ⟨interL X, ?_⟩
    simp only [urljoin]
    rw [if_neg hbne, if_neg hre]
    simp only [hbp, hrp]
    rw [if_neg (show ¬(([] : List Char) ≠ [] ∨
      ([] : List Char) ∉ uses_relative) from by decide)]
    rw [if_neg (show ¬(([] : List Char) ∈ uses_netloc ∧
      ([] : List Char) ≠ []) from by decide)]
    rw [ite_self]
    rw [if_neg (show ¬(rel.data = [] ∧ True) from fun hc => hrdne hc.1)]
    rw [hsplit]
    rw [if_neg hgl]
    rw [if_neg (take_one_ne_slash rel.data hrel)]
    rw [hseg, hfold]
    rw [if_neg hlastne]
    rw [if_neg hpne]
    rw [urlunparseL_plain]
    exact hpathdata
end LektorRedirect

namespace LektorRedirect

theorem mem_eraseDups_loop {α : Type} [BEq α] (l : List α) :
    ∀ (acc : List α) (x : α), x ∈ List.eraseDups.loop l acc → x ∈ l ∨ x ∈ acc := by
  induction l with
  | nil =>
    intro acc x h
    rw [List.eraseDups.loop] at h
    right
    simpa using h
  | cons a as ih =>
    intro acc x h
    rw [List.eraseDups.loop] at h
    cases hc : List.elem a acc with
    | true =>
      rw [hc] at h
      rcases ih acc x h with h2 | h2
      · exact Or.inl (List.mem_cons_of_mem a h2)
      · exact Or.inr h2
    | false =>
      rw [hc] at h
      rcases ih (a :: acc) x h with h2 | h2
      · exact Or.inl (List.mem_cons_of_mem a h2)
      · rcases List.mem_cons.mp h2 with h3 | h3
        · exact Or.inl (h3 ▸ List.mem_cons_self a as)
        · exact Or.inr h3

theorem mem_of_mem_eraseDups {α : Type} [BEq α] (l : List α) (x : α)
    (h : x ∈ l.eraseDups) : x ∈ l := by
  rcases mem_eraseDups_loop l [] x h with h2 | h2
  · exact h2
  · simp at h2

theorem startsSlash_dropWhile_slash (l : List Char) :
    startsSlash (l.dropWhile (· = '/')) = false := by
  induction l with
  | nil => rfl
  | cons x xs ih =>
    by_cases hx : x = '/'
    · rw [List.dropWhile_cons_of_pos (by simp [hx])]
      exact ih
    · rw [List.dropWhile_cons_of_neg (by simp [hx])]
      simp [startsSlash, hx]

theorem splitL_dropWhile_slash_subset (l : List Char) :
    ∀ c ∈ splitL (l.dropWhile (· = '/')), c ∈ splitL l := by
  induction l with
  | nil => intro c hc; exact hc
  | cons x xs ih =>
    by_cases hx : x = '/'
    · subst hx
      intro c hc
      rw [List.dropWhile_cons_of_pos (by simp)] at hc
      rw [splitL_slash]
      exact List.mem_cons_of_mem _ (ih c hc)
    · intro c hc
      rw [List.dropWhile_cons_of_neg (by simp [hx])] at hc
      exact hc

theorem dropWhile_replicate_slash_append (k : Nat) (rest : List Char) :
    (List.replicate k '/' ++ rest).dropWhile (· = '/') =
      rest.dropWhile (· = '/') := by
  induction k with
  | zero => rfl
  | succ n ih =>
    rw [List.replicate_succ, List.cons_append,
      List.dropWhile_cons_of_pos (by simp)]
    exact ih

theorem dropWhile_slash_interL (c0 : List Char) (cs : List (List Char))
    (hne : c0 ≠ []) (hslash : '/' ∉ c0) (tl : List Char) :
    (interL (c0 :: cs) ++ tl).dropWhile (· = '/') = interL (c0 :: cs) ++ tl := by
  obtain ⟨ch, ct, hc0⟩ := List.exists_cons_of_ne_nil hne
  have hch : ch ≠ '/' := fun h => hslash (h ▸ hc0 ▸ List.mem_cons_self _ _)
  have hshape : ∃ r, interL (c0 :: cs) ++ tl = ch :: r := by
    cases cs with
    | nil =>
      refine ⟨ct ++ tl, ?_⟩
      rw [show interL [c0] = c0 from rfl, hc0]
      rfl
    | cons d ds =>
      refine ⟨(ct ++ '/' :: interL (d :: ds)) ++ tl, ?_⟩
      rw [interL_cons_of_ne c0 (d :: ds) (by simp), hc0]
      rfl
  obtain ⟨r, hr⟩ := hshape
  rw [hr, List.dropWhile_cons_of_neg (by simp [hch])]

/-- Keys produced by `normalize_url_path` against an absolute base url
survive `lstrip("/")` with only clean segments: no `"."` or `".."`
component remains for `urljoin` to resolve. -/
theorem lstrip_normalize_segments (b raw : String)
    (hb : startsSlash b.data = true) :
    ∀ c ∈ splitL (lstripSlash (normalizeFrom b raw)).data,
      c ≠ ['.'] ∧ c ≠ ['.', '.'] := by
  show ∀ c ∈ splitL ((normalizeL b.data raw.data).dropWhile (· = '/')), _
  simp only [normalizeL]
  set jn := if startsSlash raw.data then raw.data else joinL b.data raw.data
    with hjndef
  have hjn : startsSlash jn = true := by
    rw [hjndef]
    by_cases hr : startsSlash raw.data = true
    · rw [if_pos hr]; exact hr
    · rw [if_neg (by simp [hr])]
      exact startsSlash_joinL b.data raw.data hb
  have hk1 : 1 ≤ initialSlashesOf jn := by
    rcases initialSlashesOf_cases jn hjn with h | h <;> omega
  obtain ⟨comps, hgood, heq⟩ := normpathL_shape jn
  have hknz : ¬(initialSlashesOf jn = 0 ∧ comps = []) := fun h => by omega
  rw [if_neg hknz] at heq
  rw [heq]
  have main : ∀ (tl : List Char), tl = [] ∨ tl = ['/'] →
      ∀ c ∈ splitL ((canonL (initialSlashesOf jn) comps ++ tl).dropWhile
        (· = '/')), c ≠ ['.'] ∧ c ≠ ['.', '.'] := by
    intro tl htl c hc
    cases hcs : comps with
    | nil =>
      rw [hcs] at hc
      have hdw : (canonL (initialSlashesOf jn) [] ++ tl).dropWhile (· = '/') =
          [] := by
        rw [List.dropWhile_eq_nil_iff]
        intro x hx
        rcases List.mem_append.mp hx with h | h
        · unfold canonL at h
          rcases List.mem_append.mp h with h2 | h2
          · simp [List.eq_of_mem_replicate h2]
          · have h5 : x ∈ ([] : List Char) := h2
            simp at h5
        · rcases htl with h3 | h3 <;> rw [h3] at h
          · simp at h
          · simpa using h
      rw [hdw] at hc
      have hcnil : c = [] := by simpa [splitL] using hc
      subst hcnil
      exact ⟨by simp, by simp⟩
    | cons c0 cs0 =>
      rw [hcs] at hc
      have hg0 := hgood c0 (hcs ▸ List.mem_cons_self _ _)
      have hdw : (canonL (initialSlashesOf jn) (c0 :: cs0) ++ tl).dropWhile
          (· = '/') = interL (c0 :: cs0) ++ tl := by
        unfold canonL
        rw [List.append_assoc, dropWhile_replicate_slash_append]
        exact dropWhile_slash_interL c0 cs0 hg0.1 hg0.2.1 tl
      rw [hdw] at hc
      have hsf : ∀ x ∈ (c0 :: cs0), '/' ∉ x := by
        intro x hx
        exact (hgood x (hcs ▸ hx)).2.1
      rcases htl with h3 | h3 <;> rw [h3] at hc
      · rw [List.append_nil, splitL_interL _ (by simp) hsf] at hc
        have hg := hgood c (hcs ▸ hc)
        exact ⟨hg.2.2.1, hg.2.2.2 hk1⟩
      · rw [splitL_append_slash, splitL_interL _ (by simp) hsf] at hc
        rcases List.mem_append.mp hc with h4 | h4
        · have hg := hgood c (hcs ▸ h4)
          exact ⟨hg.2.2.1, hg.2.2.2 hk1⟩
        · have hcnil : c = [] := by simpa using h4
          subst hcnil
          exact ⟨by simp, by simp⟩
  by_cases hdot : '.' ∈ basenameL (canonL (initialSlashesOf jn) comps)
  · rw [if_pos hdot]
    intro c hc
    refine main [] (Or.inl rfl) c ?_
    rw [List.append_nil]
    exact hc
  · rw [if_neg hdot]
    exact main ['/'] (Or.inr rfl)

end LektorRedirect

namespace LektorRedirect

/-- Every key of a built index was declared by some walked record, hence
is a `normalize_url_path` output against that record's base url. -/
theorem key_normalized (enum : List Record → List Record) (pad : Pad)
    (henum : ∀ l, (enum l).Perm l)
    (hpaths : (pad.records.map Record.path).Nodup)
    (u : String) (hu : u ∈ (RedirectIndex.build enum pad).keys) :
    ∃ c ∈ pad.records, u ∈ _get_redirect_urls c ∧
      ∃ raw, u = normalizeFrom c.base_url raw := by
  have hk : u ∈ keysA (RedirectIndex.build enum pad)._redirects := hu
  cases hl : lookupA (RedirectIndex.build enum pad)._redirects u with
  | none => exact absurd hk ((lookupA_eq_none_iff _ u).mp hl)
  | some cs =>
    obtain ⟨cs0, hcs, hne⟩ := lookup_build_shape enum pad u cs hl
    obtain ⟨t, ts, hts⟩ := List.exists_cons_of_ne_nil hne
    have htmem : t ∈ cs := by
      rw [hcs]
      exact (henum cs0).mem_iff.mpr (hts ▸ List.mem_cons_self _ _)
    have htc : t ∈ (lookupA (RedirectIndex.build enum pad)._redirects u).getD [] := by
      rw [hl]
      exact htmem
    rw [mem_getD_build enum pad henum hpaths] at htc
    obtain ⟨⟨hrec, hurl⟩, _⟩ := htc
    refine ⟨t, hrec, hurl, ?_⟩
    unfold _get_redirect_urls at hurl
    cases hf : t.redirect_from with
    | typeError =>
      rw [hf] at hurl
      have h5 : u ∈ ([] : List String) := hurl
      simp at h5
    | keyError =>
      rw [hf] at hurl
      have h5 : u ∈ ([] : List String) := hurl
      simp at h5
    | vals urls =>
      rw [hf] at hurl
      have h5 : u ∈ urls.map
          (fun redirect_url => normalizeFrom t.base_url redirect_url) :=
        mem_of_mem_eraseDups _ u hurl
      obtain ⟨raw, _, hraw⟩ := List.mem_map.mp h5
      exact ⟨raw, hraw.symm⟩

/-- Every successful `__getitem__` result over a valid walk is a walked
record whose own canonical url differs from the looked-up key. -/
theorem getitem_ok_props (enum : List Record → List Record) (pad : Pad)
    (henum : ∀ l, (enum l).Perm l)
    (hpaths : (pad.records.map Record.path).Nodup)
    (hurls : (pad.records.map Record.url_path).Nodup)
    (u : String) (r : Record)
    (h : (RedirectIndex.build enum pad).getitem u = .ok r) :
    r ∈ pad.records ∧ r.url_path ≠ u := by
  unfold RedirectIndex.getitem at h
  cases hl : lookupA (RedirectIndex.build enum pad)._redirects u with
  | none =>
    rw [hl] at h
    exact Except.noConfusion h
  | some cs =>
    rw [hl] at h
    cases cs with
    | nil => exact Except.noConfusion h
    | cons t ts =>
      have h2 : Except.ok (ε := PyErr) t = Except.ok r := h
      injection h2 with he
      subst he
      have hmem : t ∈ (lookupA (RedirectIndex.build enum pad)._redirects u).getD [] := by
        rw [hl]
        exact List.mem_cons_self _ _
      have hdecl := (mem_getD_build enum pad henum hpaths u t).mp hmem
      exact ⟨hdecl.1.1,
        build_no_self_candidates_aux enum pad henum hpaths hurls u (t :: ts) hl
          t (List.mem_cons_self _ _)⟩

/-- When the looked-up target is not a self-redirect, a positive
`is_conflict` with warning enabled always emits a diagnostic. -/
theorem is_conflict_msgs_of_not_self (idx : RedirectIndex) (pad : Pad)
    (verbosity : Nat) (u : String) (target : Record)
    (hne : target.url_path ≠ u)
    (hc : (idx.is_conflict pad verbosity u target true).1 = true) :
    (idx.is_conflict pad verbosity u target true).2 ≠ [] := by
  unfold RedirectIndex.is_conflict at hc ⊢
  rw [raise_on_conflict_eq, if_neg hne] at hc ⊢
  cases hex : existingAt idx pad u with
  | some e =>
    exact List.cons_ne_nil _ _
  | none =>
    rw [hex] at hc
    cases hf : ((lookupA idx._redirects u).getD []).find?
        (fun c => !(Record.beq c target)) with
    | some c =>
      exact List.cons_ne_nil _ _
    | none =>
      rw [hf] at hc
      have hc2 : false = true := hc
      exact Bool.noConfusion hc2

end LektorRedirect

namespace LektorRedirect

/-- The pad of the C3 witness: one record redirecting `/old` to `/a/`,
on a site mounted under the base path `/prefix/`. -/
def recMapA : Record := ⟨"/a", "/a/", some "/", .vals ["/old"]⟩

/-- Witness pad for the redirect-map iteration. -/
def padMap : Pad := ⟨[recMapA], fun _ => none, "/prefix/"⟩

/-- The pad of the C3 counterexample: one record declaring a redirect
from `/mailto:spam`, on a site mounted under `/prefix/`.  The key
normalizes to `/mailto:spam/`; `lstrip("/")` leaves `mailto:spam/`,
which `urljoin` parses as carrying the `mailto` scheme and returns
unchanged, so the emitted entry does not carry the base path. -/
def recMailto : Record := ⟨"/a", "/a/", some "/", .vals ["/mailto:spam"]⟩

/-- Counterexample pad: a declared redirect url that `urljoin` reads as
a scheme-ful reference. -/
def padMailto : Pad := ⟨[recMailto], fun _ => none, "/prefix/"⟩

end LektorRedirect
